import Mathlib

/-!
Verification development for the qbittorrent-sync reconciliation engine
(src/qbittorrent_sync/{config,sync,cli}.py), as a shallow embedding.

Conventions of the embedding:
* Python dicts keyed by info-hash become association lists
  (List (String × TorrentEntry)); dict assignment is insert-with-replace,
  lookup returns the entry stored for a key.  Python dict keys are unique,
  which theorems assume via explicit NoDup hypotheses where needed.
* Network calls to a qBittorrent instance are modelled by a ClientBehavior
  record of oracles: each call either returns a value or raises (None /
  a Bool success flag).  Code paths that issue client calls additionally
  produce a trace of Event values so that claims about which calls are or
  are not issued can be stated.
* Floating point progress values are modelled as rationals; the only
  comparison performed by the source (progress < 1.0) is exact there.
* seeding_time is modelled as an integer; the source applies
  t.get("seeding_time", 0) or 0, so a missing value is already 0 here.
-/

namespace QbtSync

/-- Snapshot of one torrent raw record as returned by torrents_info, with
the dict-get defaults of sync.py already applied (name/save_path/category/
content_path/download_path default to the empty string, progress to 0,
seeding_time to 0, state to the empty string). -/
structure RawTorrent where
  hash : String
  name : String := ""
  state : String := ""
  progress : Rat := 0
  seeding_time : Int := 0
  save_path : String := ""
  category : String := ""
  content_path : String := ""
  download_path : String := ""
  deriving DecidableEq, Repr

/-- TorrentEntry from sync.py: lightweight snapshot of a torrent's
sync-relevant properties. -/
structure TorrentEntry where
  hash : String
  name : String
  save_path : String
  category : String
  content_path : String
  download_path : String := ""
  file_priorities : Option (List Int) := none
  deriving DecidableEq, Repr

/-- SyncDiff from sync.py: computed diff between master and a single child. -/
structure SyncDiff where
  child_name : String
  to_delete : List TorrentEntry := []
  to_add : List TorrentEntry := []
  to_recategorize : List (TorrentEntry × TorrentEntry) := []
  to_relocate : List (TorrentEntry × TorrentEntry) := []
  to_sync_files : List TorrentEntry := []
  deriving DecidableEq, Repr

/-- SyncDiff.is_empty from sync.py. -/
def SyncDiff.is_empty (d : SyncDiff) : Bool :=
  d.to_delete.isEmpty && d.to_add.isEmpty && d.to_recategorize.isEmpty
    && d.to_relocate.isEmpty && d.to_sync_files.isEmpty

/-- A snapshot map, i.e. a Python dict keyed by info-hash. -/
abbrev TMap := List (String × TorrentEntry)

/-- Dict lookup: value stored at a key (first occurrence). -/
def lookupKey (k : String) : TMap → Option TorrentEntry
  | [] => none
  | p :: rest => if p.1 = k then some p.2 else lookupKey k rest

/-- Remove every pair with the given key. -/
def eraseKey (k : String) : TMap → TMap
  | [] => []
  | p :: rest => if p.1 = k then eraseKey k rest else p :: eraseKey k rest

/-- Dict assignment result[k] = v (replaces any previous binding). -/
def insertKey (k : String) (v : TorrentEntry) (l : TMap) : TMap :=
  (k, v) :: eraseKey k l

/-- In-place update of the entry stored at a key (models Python mutating
the object an alias points to). -/
def modifyKey (k : String) (f : TorrentEntry → TorrentEntry) (l : TMap) : TMap :=
  l.map (fun p => if p.1 = k then (p.1, f p.2) else p)

/-- Models _torrent_to_entry from sync.py. -/
def torrentToEntry (t : RawTorrent) : TorrentEntry :=
  { hash := t.hash
    name := t.name
    save_path := t.save_path
    category := t.category
    content_path := t.content_path
    download_path := t.download_path }

/-- Python str.lower() as used on torrent states, defined over the
character list (equivalent to String.toLower on these ASCII state names,
but by structural recursion so that concrete instances evaluate). -/
def pyLower (s : String) : String := String.mk (s.data.map Char.toLower)

/-- The set _PAUSED_STATES from sync.py. -/
def pausedStates : List String := ["pausedup", "pauseddl"]

/-- The completed/seeding state family tested in _fetch_master_torrents. -/
def completedStates : List String :=
  ["uploading", "stalledup", "forcedup", "pausedup", "queuedup",
   "checkingup", "seeding", "completed"]

/-- Per-record keep decision of _fetch_master_torrents: the stopped-as-removed
gate, then the completeness test, then the seeding-time threshold.  Mirrors
the three continue statements of the source loop. -/
def masterKeeps (min_seeding_seconds : Int) (treat_stopped_as_removed : Bool)
    (t : RawTorrent) : Bool :=
  if treat_stopped_as_removed && pausedStates.contains (pyLower t.state) then
    false
  else if !(completedStates.contains (pyLower t.state)) && t.progress < 1 then
    false
  else if t.seeding_time < min_seeding_seconds then
    false
  else
    true

/-- The dict-building loop of _fetch_master_torrents. -/
def buildMasterMap (min_seeding_seconds : Int) (treat_stopped_as_removed : Bool)
    (ts : List RawTorrent) : TMap :=
  ts.foldl
    (fun acc t =>
      if masterKeeps min_seeding_seconds treat_stopped_as_removed t then
        insertKey t.hash (torrentToEntry t) acc
      else acc)
    []

/-- The load_file_priorities pass of _fetch_master_torrents: for every entry
of the map, fetch its file priorities from the master client; on failure
(oracle returns none) the priority list stays absent. -/
def attachFilePriorities (files : String → Option (List Int)) (m : TMap) : TMap :=
  m.map (fun p =>
    match files p.1 with
    | some ps => (p.1, { p.2 with file_priorities := some ps })
    | none => p)

/-- Models _fetch_master_torrents from sync.py: eligible master torrents keyed by
info-hash, with file priorities attached when load_file_priorities is set.
files is the torrents_files oracle of the master client (none = the call
raised). -/
def fetchMasterTorrents (files : String → Option (List Int))
    (ts : List RawTorrent) (min_seeding_seconds : Int)
    (load_file_priorities : Bool) (treat_stopped_as_removed : Bool) : TMap :=
  let result := buildMasterMap min_seeding_seconds treat_stopped_as_removed ts
  if load_file_priorities then attachFilePriorities files result else result

/-- Models _fetch_child_torrents from sync.py: all torrents keyed by info-hash,
no eligibility filter. -/
def fetchChildTorrents (ts : List RawTorrent) : TMap :=
  ts.foldl (fun acc t => insertKey t.hash (torrentToEntry t) acc) []

-- -------------------------------------------------------------------------
-- Configuration surface (config.py vs the fields sync.py / cli.py read)
-- -------------------------------------------------------------------------

/-- The attribute names defined by the SyncConfig dataclass in config.py;
these are exactly the sync fields load_config populates. -/
def syncConfigFields : List String :=
  ["min_seeding_time_minutes", "skip_hash_check"]

/-- The cfg.sync attributes read by run_sync in sync.py (lines 536, 561,
562 and 596). -/
def runSyncSyncFieldReads : List String :=
  ["min_seeding_time_minutes", "sync_file_selections",
   "treat_stopped_as_removed", "skip_hash_check"]

/-- The cfg.sync attributes read by the CLI default handling and the
daemon loop in cli.py (lines 70, 102 and 103). -/
def daemonSyncFieldReads : List String :=
  ["dry_run", "daemon_run_interval_minutes"]

/-- An attribute read cfg.sync.f on a load_config result succeeds exactly
when the SyncConfig dataclass defines the field f (otherwise Python raises
AttributeError). -/
def syncFieldReadTotal (f : String) : Bool := syncConfigFields.contains f

-- -------------------------------------------------------------------------
-- Daemon loop (cli.py _run_daemon)
-- -------------------------------------------------------------------------

/-- Modelled from the spec: the sync options the daemon loop reads.
cfg.sync.dry_run and cfg.sync.daemon_run_interval_minutes belong to the
configuration surface the spec lists, but the SyncConfig dataclass in
config.py does not define them (see sync_config_fields_missing); only the
fields the daemon loop itself uses are modelled here. -/
structure DaemonSyncConfig where
  dry_run : Bool
  daemon_run_interval_minutes : Int
  deriving DecidableEq, Repr

/-- Observable outcome of one iteration of the while-loop body of
_run_daemon in cli.py. -/
structure DaemonStep where
  ranSync : Bool
  dryRunUsed : Option Bool
  cfgUsed : Option DaemonSyncConfig
  nextPrev : Option DaemonSyncConfig
  sleepSeconds : Int
  exits : Bool
  deriving DecidableEq, Repr

/-- One iteration of the _run_daemon loop body: loadResult is the outcome
of load_config (error = ConfigError), prev the running prev_sync value,
dryRunOverride the value of the dry-run CLI option pair. -/
def daemonLoopStep (loadResult : Except String DaemonSyncConfig)
    (prev : Option DaemonSyncConfig) (dryRunOverride : Option Bool) :
    DaemonStep :=
  match loadResult with
  | Except.error _ =>
      { ranSync := false, dryRunUsed := none, cfgUsed := none,
        nextPrev := prev, sleepSeconds := 60, exits := false }
  | Except.ok sync =>
      { ranSync := true
        dryRunUsed := some (match dryRunOverride with
          | some b => b
          | none => sync.dry_run)
        cfgUsed := some sync
        nextPrev := some sync
        sleepSeconds := sync.daemon_run_interval_minutes * 60
        exits := false }

-- -------------------------------------------------------------------------
-- Diff engine (sync.py compute_diff) and success-path apply state effect
-- -------------------------------------------------------------------------

/-- Truthiness of entry.file_priorities combined with any(p == 0): a
present, non-empty priority list containing a zero. -/
def hasZeroPriority : Option (List Int) → Bool
  | none => false
  | some ps => ps.any (fun p => p == 0)

/-- The pairs (master[h], child[h]) for every hash present in both maps,
in master iteration order. -/
def commonPairs (master child : TMap) : List (TorrentEntry × TorrentEntry) :=
  master.filterMap (fun p => (lookupKey p.1 child).map (fun ce => (p.2, ce)))

/-- compute_diff from sync.py.  The source iterates over hash sets; here
the iteration is linearised in map order (dict keys are unique, and the
properties proved below are insensitive to iteration order). -/
def compute_diff (master child : TMap) (child_name : String) : SyncDiff :=
  { child_name := child_name
    to_delete :=
      (child.filter (fun p => (lookupKey p.1 master).isNone)).map Prod.snd
    to_add :=
      (master.filter (fun p => (lookupKey p.1 child).isNone)).map Prod.snd
    to_recategorize :=
      (commonPairs master child).filter
        (fun pr => !(pr.1.category == pr.2.category))
    to_relocate :=
      (commonPairs master child).filter
        (fun pr => !(pr.1.save_path == pr.2.save_path)
          || !(pr.1.download_path == pr.2.download_path))
    to_sync_files :=
      ((commonPairs master child).filter
        (fun pr => hasZeroPriority pr.1.file_priorities)).map Prod.fst }

/-- Success-path state effect of _apply_deletes on the child snapshot:
every listed hash is removed. -/
def applyDeletesState (entries : List TorrentEntry) (child : TMap) : TMap :=
  entries.foldl (fun acc e => eraseKey e.hash acc) child

/-- Success-path state effect of _apply_adds on the child snapshot: the
exported master torrent appears on the child under the master entry
(save path, category, download path are the submitted add_kwargs). -/
def applyAddsState (entries : List TorrentEntry) (child : TMap) : TMap :=
  entries.foldl (fun acc e => insertKey e.hash e acc) child

/-- Per-item modify pass over the child snapshot, keyed through a
projection (shared shape of the recategorize and relocate passes). -/
def modifyFold {α : Type} (key : α → String)
    (f : α → TorrentEntry → TorrentEntry)
    (entries : List α) (child : TMap) : TMap :=
  entries.foldl (fun acc x => modifyKey (key x) (f x) acc) child

/-- Success-path state effect of _apply_recategorize: the child torrent's
category is set to the master's value. -/
def applyRecategorizeState (entries : List (TorrentEntry × TorrentEntry))
    (child : TMap) : TMap :=
  modifyFold (fun pr => pr.1.hash)
    (fun pr ce => { ce with category := pr.1.category }) entries child

/-- Success-path state effect of _apply_relocates: save path and download
path are set to the master's values when they differed at diff time. -/
def applyRelocatesState (entries : List (TorrentEntry × TorrentEntry))
    (child : TMap) : TMap :=
  modifyFold (fun pr => pr.1.hash)
    (fun pr ce =>
      { ce with
          save_path :=
            if pr.1.save_path == pr.2.save_path then ce.save_path
            else pr.1.save_path
          download_path :=
            if pr.1.download_path == pr.2.download_path then ce.download_path
            else pr.1.download_path }) entries child

/-- The applier's success-path state effect for one diff, in apply order:
deletes, adds, recategorizations, relocations.  File-selection sync does
not change any snapshot field tracked by TorrentEntry on the child. -/
def applyDiffState (d : SyncDiff) (child : TMap) : TMap :=
  applyRelocatesState d.to_relocate
    (applyRecategorizeState d.to_recategorize
      (applyAddsState d.to_add
        (applyDeletesState d.to_delete child)))

-- -------------------------------------------------------------------------
-- Trace model: client behaviors, events, and the appliers of sync.py
-- -------------------------------------------------------------------------

/-- Outcome of a torrents_add call on the child. -/
inductive AddOutcome where
  | ok
  | conflict
  | err
  deriving DecidableEq, Repr

/-- Behavior of one qBittorrent instance as seen through the client
capability: the data its queries return and whether each call succeeds
(false / none = the call raises). -/
structure ClientBehavior where
  connect_ok : Bool := true
  torrents : List RawTorrent := []
  files : String → Option (List Int) := fun _ => none
  export_ok : String → Bool := fun _ => true
  add_result : String → AddOutcome := fun _ => AddOutcome.ok
  delete_ok : Bool := true
  set_category_ok : String → Bool := fun _ => true
  pause_ok : String → Bool := fun _ => true
  set_save_path_ok : String → Bool := fun _ => true
  set_download_path_ok : String → Bool := fun _ => true
  file_priority_ok : String → Bool := fun _ => true
  resume_ok : String → Bool := fun _ => true

/-- One client call (or console report) issued during a sync cycle.
fetchFiles carries whether the call went to the master instance. -/
inductive Event where
  | connectMaster
  | connectChild (child : String)
  | fetchTorrentsMaster
  | fetchTorrentsChild (child : String)
  | fetchFiles (onMaster : Bool) (hash : String)
  | exportTorrent (hash : String)
  | reportStale (child : String) (count : Nat)
  | reportDiff (d : SyncDiff)
  | deleteTorrents (hashes : List String)
  | addTorrent (hash : String)
  | setCategory (hash : String)
  | setSavePath (hash : String)
  | setDownloadPath (hash : String)
  | setFilePriority (hash : String)
  | pause (hash : String)
  | resume (hash : String)
  deriving DecidableEq, Repr

/-- Whether an event is a mutating client call (delete, add, set-category,
set-save-path, set-download-path, set-file-priority, pause or resume). -/
def Event.isMutating : Event → Bool
  | Event.deleteTorrents _ => true
  | Event.addTorrent _ => true
  | Event.setCategory _ => true
  | Event.setSavePath _ => true
  | Event.setDownloadPath _ => true
  | Event.setFilePriority _ => true
  | Event.pause _ => true
  | Event.resume _ => true
  | _ => false

/-- Result of one apply pass: items applied, the client calls issued, and
whether an unhandled exception escaped the pass (aborting the cycle). -/
structure ApplyResult where
  count : Nat := 0
  trace : List Event := []
  raised : Bool := false
  deriving DecidableEq, Repr

/-- Models _apply_deletes from sync.py: one batched delete call for all flagged
hashes.  The call is not wrapped in try/except anywhere on its path, so a
failure raises out of run_sync. -/
def applyDeletes (ccb : ClientBehavior) (entries : List TorrentEntry) :
    ApplyResult :=
  if entries.isEmpty then {}
  else if ccb.delete_ok then
    { count := entries.length
      trace := [Event.deleteTorrents (entries.map (fun e => e.hash))] }
  else
    { trace := [Event.deleteTorrents (entries.map (fun e => e.hash))]
      raised := true }

/-- Result of _apply_adds: torrents added, trace, whether the unguarded
post-add resume call raised (aborting the batch), and the master entries
after the in-place file_priorities backfill (entries after an abort are
returned unchanged). -/
structure AddsResult where
  added : Nat := 0
  trace : List Event := []
  raised : Bool := false
  entries : List TorrentEntry := []
  deriving DecidableEq, Repr

/-- The master-files backfill step of _apply_adds for one entry: when the
priority list is absent it is fetched from the master; a failed fetch
leaves it absent. -/
def backfillPriorities (mcb : ClientBehavior) (e : TorrentEntry) :
    TorrentEntry :=
  match e.file_priorities with
  | some _ => e
  | none =>
      match mcb.files e.hash with
      | some ps => { e with file_priorities := some ps }
      | none => e

/-- The trace of the backfill step (the torrents_files call is attempted
on the master exactly when the priority list is absent). -/
def backfillTrace (e : TorrentEntry) : List Event :=
  match e.file_priorities with
  | some _ => []
  | none => [Event.fetchFiles true e.hash]

/-- Models _apply_adds from sync.py: per entry, export the .torrent from master
(failure skips the entry), backfill file priorities, submit the add
(conflict = already present = success-no-op; any other add failure skips
the entry), and for entries with deselected files push zero priorities
(failure logged) and resume — the resume call sits outside the try block,
so its failure raises and aborts the rest of the batch. -/
def applyAdds (mcb ccb : ClientBehavior) (entries : List TorrentEntry)
    (skip_hash_check : Bool) : AddsResult :=
  match entries with
  | [] => {}
  | e :: rest =>
    if mcb.export_ok e.hash = false then
      let r := applyAdds mcb ccb rest skip_hash_check
      { r with trace := Event.exportTorrent e.hash :: r.trace,
               entries := e :: r.entries }
    else
      let e' := backfillPriorities mcb e
      let evs := Event.exportTorrent e.hash :: backfillTrace e
      match ccb.add_result e.hash with
      | AddOutcome.err =>
          let r := applyAdds mcb ccb rest skip_hash_check
          { r with trace := evs ++ [Event.addTorrent e.hash] ++ r.trace,
                   entries := e' :: r.entries }
      | AddOutcome.conflict =>
          let r := applyAdds mcb ccb rest skip_hash_check
          { r with trace := evs ++ [Event.addTorrent e.hash] ++ r.trace,
                   entries := e' :: r.entries }
      | AddOutcome.ok =>
          if hasZeroPriority e'.file_priorities then
            if ccb.resume_ok e.hash then
              let r := applyAdds mcb ccb rest skip_hash_check
              { r with
                  added := r.added + 1
                  trace := evs ++ [Event.addTorrent e.hash,
                    Event.setFilePriority e.hash, Event.resume e.hash]
                    ++ r.trace
                  entries := e' :: r.entries }
            else
              { added := 1
                trace := evs ++ [Event.addTorrent e.hash,
                  Event.setFilePriority e.hash, Event.resume e.hash]
                raised := true
                entries := e' :: rest }
          else
            let r := applyAdds mcb ccb rest skip_hash_check
            { r with
                added := r.added + 1
                trace := evs ++ [Event.addTorrent e.hash] ++ r.trace
                entries := e' :: r.entries }

/-- Models _apply_recategorize from sync.py: per pair, one set-category call
inside its own try block; a failure is logged and skipped. -/
def applyRecategorize (ccb : ClientBehavior)
    (entries : List (TorrentEntry × TorrentEntry)) : ApplyResult :=
  match entries with
  | [] => {}
  | pr :: rest =>
    let r := applyRecategorize ccb rest
    { count := (if ccb.set_category_ok pr.1.hash then 1 else 0) + r.count
      trace := Event.setCategory pr.1.hash :: r.trace
      raised := false }

/-- One relocate item of _apply_relocates: pause, set save path (when it
differed at diff time), set download path (when it differed), resume —
all inside one try block, so a failing call skips only the rest of that
item.  Returns the calls attempted and whether the item completed. -/
def relocateItem (ccb : ClientBehavior) (pr : TorrentEntry × TorrentEntry) :
    List Event × Bool :=
  let h := pr.1.hash
  if ccb.pause_ok h = false then
    ([Event.pause h], false)
  else if pr.1.save_path ≠ pr.2.save_path ∧ ccb.set_save_path_ok h = false
  then
    ([Event.pause h, Event.setSavePath h], false)
  else
    let evs1 :=
      if pr.1.save_path == pr.2.save_path then [] else [Event.setSavePath h]
    if pr.1.download_path ≠ pr.2.download_path ∧
        ccb.set_download_path_ok h = false then
      (Event.pause h :: (evs1 ++ [Event.setDownloadPath h]), false)
    else
      let evs2 :=
        if pr.1.download_path == pr.2.download_path then []
        else [Event.setDownloadPath h]
      (Event.pause h :: (evs1 ++ evs2 ++ [Event.resume h]),
        ccb.resume_ok h)

/-- Models _apply_relocates from sync.py: every pair is attempted; item failures
are logged and skipped. -/
def applyRelocates (ccb : ClientBehavior)
    (entries : List (TorrentEntry × TorrentEntry)) : ApplyResult :=
  match entries with
  | [] => {}
  | pr :: rest =>
    let item := relocateItem ccb pr
    let r := applyRelocates ccb rest
    { count := (if item.2 then 1 else 0) + r.count
      trace := item.1 ++ r.trace
      raised := false }

/-- The divergence test shared by the file-sync passes: some index the
master has deselected (priority zero), within the child's file count,
whose priority on the child is not zero.  Mirrors the enumerate-based
generator expressions of sync.py. -/
def childDiverges (ps cf : List Int) : Bool :=
  (List.range ps.length).any
    (fun i => ps.getD i 1 == 0 && decide (i < cf.length)
      && !(cf.getD i 0 == 0))

/-- The indices pushed by _apply_file_priority_sync for one entry. -/
def fileSyncDeselectIds (ps cf : List Int) : List Nat :=
  (List.range ps.length).filter
    (fun i => ps.getD i 1 == 0 && decide (i < cf.length)
      && !(cf.getD i 0 == 0))

/-- Models _apply_file_priority_sync from sync.py: per entry with a tracked
non-empty priority list, fetch the child's files (failure skips the
entry), compute the indices deselected on master but not yet on the
child, and push zero priority when that set is non-empty (push failure
logged and skipped). -/
def applyFilePrioritySync (ccb : ClientBehavior)
    (entries : List TorrentEntry) : ApplyResult :=
  match entries with
  | [] => {}
  | e :: rest =>
    let r := applyFilePrioritySync ccb rest
    match e.file_priorities with
    | none => r
    | some ps =>
      if ps.isEmpty then r
      else
        match ccb.files e.hash with
        | none => { r with trace := Event.fetchFiles false e.hash :: r.trace }
        | some cf =>
          if (fileSyncDeselectIds ps cf).isEmpty then
            { r with trace := Event.fetchFiles false e.hash :: r.trace }
          else
            { count := (if ccb.file_priority_ok e.hash then 1 else 0)
                + r.count
              trace := Event.fetchFiles false e.hash
                :: Event.setFilePriority e.hash :: r.trace
              raised := false }

/-- Models _filter_needed_file_syncs from sync.py: keep a candidate only when its
master priority list is tracked and non-empty and either the child file
list cannot be fetched (conservative keep) or some master-deselected
index is not yet deselected on the child. -/
def filterNeededFileSyncs (files : String → Option (List Int)) :
    List TorrentEntry → List TorrentEntry
  | [] => []
  | e :: rest =>
    match e.file_priorities with
    | none => filterNeededFileSyncs files rest
    | some ps =>
      if ps.isEmpty then filterNeededFileSyncs files rest
      else
        match files e.hash with
        | none => e :: filterNeededFileSyncs files rest
        | some cf =>
          if childDiverges ps cf then e :: filterNeededFileSyncs files rest
          else filterNeededFileSyncs files rest

/-- The torrents_files calls issued by _filter_needed_file_syncs (one per
candidate with a tracked non-empty priority list, whatever the outcome). -/
def filterNeededTrace (entries : List TorrentEntry) : List Event :=
  entries.filterMap (fun e =>
    match e.file_priorities with
    | none => none
    | some ps =>
      if ps.isEmpty then none else some (Event.fetchFiles false e.hash))

-- -------------------------------------------------------------------------
-- run_sync (sync.py) over abstract client behaviors
-- -------------------------------------------------------------------------

/-- The set _STALE_STATES from sync.py. -/
def staleStates : List String := ["error", "missingfiles"]

/-- The stale-flagging loop of _cleanup_stale_torrents: lifecycle state in
the stale set, or non-positive progress. -/
def staleHashes (ts : List RawTorrent) : List String :=
  ts.filterMap (fun t =>
    if staleStates.contains (pyLower t.state) then some t.hash
    else if t.progress ≤ 0 then some t.hash
    else none)

/-- Models _cleanup_stale_torrents for one connected child: fetch, flag, report;
in dry-run mode only the count is reported, otherwise one unguarded
batched delete is issued (its failure raises out of run_sync). -/
def cleanupStale (cb : ClientBehavior) (child : String) (dry_run : Bool) :
    List Event × Bool :=
  let stale := staleHashes cb.torrents
  if stale.isEmpty then ([Event.fetchTorrentsChild child], false)
  else if dry_run then
    ([Event.fetchTorrentsChild child, Event.reportStale child stale.length],
      false)
  else
    ([Event.fetchTorrentsChild child, Event.reportStale child stale.length,
      Event.deleteTorrents stale], !cb.delete_ok)

/-- The pre-sync cleanup pass of run_sync over all children: a connect
failure skips that child, a failed cleanup delete raises. -/
def cleanupPhase (cbOf : String → ClientBehavior) (dry_run : Bool) :
    List String → List Event × Bool
  | [] => ([], false)
  | child :: rest =>
    let cb := cbOf child
    if cb.connect_ok = false then
      let r := cleanupPhase cbOf dry_run rest
      (Event.connectChild child :: r.1, r.2)
    else
      let item := cleanupStale cb child dry_run
      if item.2 then (Event.connectChild child :: item.1, true)
      else
        let r := cleanupPhase cbOf dry_run rest
        (Event.connectChild child :: (item.1 ++ r.1), r.2)

/-- The sync options run_sync consumes.  sync_file_selections and
treat_stopped_as_removed are modelled from the spec configuration surface:
run_sync reads them from cfg.sync although config.py does not define them
(see sync_config_fields_missing). -/
structure RunConfig where
  children : List String := []
  min_seeding_time_minutes : Int := 10
  skip_hash_check : Bool := true
  sync_file_selections : Bool := true
  treat_stopped_as_removed : Bool := false

/-- Write the backfilled entries of one add pass back into the master map
(models the in-place mutation through the aliased entries to_add holds). -/
def updateMasterEntries (master : TMap) (es : List TorrentEntry) : TMap :=
  modifyFold (fun e => e.hash) (fun e _ => e) es master

/-- The five apply calls of run_sync (lines 595 to 599) for one diff, with
exception propagation: a raise in an earlier pass prevents every later
pass. -/
def applyAllCategories (mcb ccb : ClientBehavior) (d : SyncDiff)
    (skip sync_files : Bool) : List Event × Bool :=
  let dels := applyDeletes ccb d.to_delete
  if dels.raised then (dels.trace, true)
  else
    let adds := applyAdds mcb ccb d.to_add skip
    if adds.raised then (dels.trace ++ adds.trace, true)
    else
      let rc := applyRecategorize ccb d.to_recategorize
      let rl := applyRelocates ccb d.to_relocate
      let fs :=
        if sync_files then applyFilePrioritySync ccb d.to_sync_files else {}
      (dels.trace ++ adds.trace ++ rc.trace ++ rl.trace ++ fs.trace, false)

/-- The per-child reconcile loop of run_sync: connect (failure skips the
child), fetch the child, diff, narrow the file-sync list, report, and in
live mode apply deletes, adds, recategorizations, relocations and file
syncs in that order; an unguarded failure (batched delete, post-add
resume) aborts the whole cycle.  The master map is threaded because
_apply_adds backfills file_priorities in place on the shared master
entries. -/
def childPhase (mcb : ClientBehavior) (cbOf : String → ClientBehavior)
    (cfg : RunConfig) (dry_run : Bool) :
    TMap → List String → List Event × Bool
  | _, [] => ([], false)
  | master, child :: rest =>
    let cb := cbOf child
    if cb.connect_ok = false then
      let r := childPhase mcb cbOf cfg dry_run master rest
      (Event.connectChild child :: r.1, r.2)
    else
      let childMap := fetchChildTorrents cb.torrents
      let diff0 := compute_diff master childMap child
      let diff :=
        if cfg.sync_file_selections then
          { diff0 with to_sync_files :=
              filterNeededFileSyncs cb.files diff0.to_sync_files }
        else diff0
      let fEvs :=
        if cfg.sync_file_selections then filterNeededTrace diff0.to_sync_files
        else []
      let head := [Event.connectChild child, Event.fetchTorrentsChild child]
        ++ fEvs ++ [Event.reportDiff diff]
      if dry_run || diff.is_empty then
        let r := childPhase mcb cbOf cfg dry_run master rest
        (head ++ r.1, r.2)
      else
        let dels := applyDeletes cb diff.to_delete
        if dels.raised then (head ++ dels.trace, true)
        else
          let adds := applyAdds mcb cb diff.to_add cfg.skip_hash_check
          if adds.raised then (head ++ dels.trace ++ adds.trace, true)
          else
            let master' := updateMasterEntries master adds.entries
            let rc := applyRecategorize cb diff.to_recategorize
            let rl := applyRelocates cb diff.to_relocate
            let fs :=
              if cfg.sync_file_selections then
                applyFilePrioritySync cb diff.to_sync_files
              else {}
            let r := childPhase mcb cbOf cfg dry_run master' rest
            (head ++ dels.trace ++ adds.trace ++ rc.trace ++ rl.trace
              ++ fs.trace ++ r.1, r.2)

/-- run_sync from sync.py over abstract client behaviors: pre-sync cleanup
of every child, master connect (failure re-raises), master fetch with the
configured threshold and flags, then the per-child loop.  Returns the
trace of client calls/reports and whether an unhandled exception
escaped. -/
def runSync (mcb : ClientBehavior) (cbOf : String → ClientBehavior)
    (cfg : RunConfig) (dry_run : Bool) : List Event × Bool :=
  let cl := cleanupPhase cbOf dry_run cfg.children
  if cl.2 then (cl.1, true)
  else if mcb.connect_ok = false then (cl.1 ++ [Event.connectMaster], true)
  else
    let master := fetchMasterTorrents mcb.files mcb.torrents
      (cfg.min_seeding_time_minutes * 60) cfg.sync_file_selections
      cfg.treat_stopped_as_removed
    let mfEvs :=
      if cfg.sync_file_selections then
        master.map (fun p => Event.fetchFiles true p.1)
      else []
    let r := childPhase mcb cbOf cfg dry_run master cfg.children
    (cl.1 ++ [Event.connectMaster, Event.fetchTorrentsMaster] ++ mfEvs
      ++ r.1, r.2)

/-- One child step of a live cycle restricted to its effect on the shared
master snapshot: diff against the child, run the add pass, fold the
backfilled entries back into the master map. -/
def liveChildMasterStep (mcb cb : ClientBehavior) (skip : Bool)
    (master : TMap) (childTs : List RawTorrent) (name : String) : TMap :=
  updateMasterEntries master
    (applyAdds mcb cb
      (compute_diff master (fetchChildTorrents childTs) name).to_add
      skip).entries

/-- The master snapshot after processing a list of children in one live
cycle (only the add-pass backfill mutates it). -/
def liveCycleMaster (mcb : ClientBehavior) (cbOf : String → ClientBehavior)
    (skip : Bool) : TMap → List String → TMap
  | master, [] => master
  | master, child :: rest =>
      liveCycleMaster mcb cbOf skip
        (liveChildMasterStep mcb (cbOf child) skip master
          (cbOf child).torrents child) rest

/-- How the add pass may change a master entry: every field other than
file_priorities is unchanged, and a present priority list is never
overwritten (it is only backfilled when absent). -/
def backfillRel (e e' : TorrentEntry) : Prop :=
  e' = { e with file_priorities := e'.file_priorities } ∧
  ∀ l, e.file_priorities = some l → e'.file_priorities = some l

/-- Master map used by the shared-backfill witness: one entry with a
loaded priority list. -/
def prioMaster : TMap :=
  [("p", { hash := "p", name := "P", save_path := "/p", category := "",
           content_path := "", file_priorities := some [1, 0] })]

/-- Master behavior used by the dry-run witness: a single eligible
torrent. -/
def sampleMasterBehavior : ClientBehavior :=
  { torrents := [{ hash := "hM", state := "uploading", progress := 1,
                   seeding_time := 9999 }] }

/-- Run configuration used by the dry-run witness: one child. -/
def sampleRunConfig : RunConfig := { children := ["c1"] }

/-- Master map used by the idempotence witness. -/
def sampleMaster : TMap :=
  [("a", { hash := "a", name := "A", save_path := "/m/a",
           category := "movies", content_path := "/m/a/A" }),
   ("b", { hash := "b", name := "B", save_path := "/new",
           category := "tv", content_path := "/new/B",
           download_path := "/tmp/b" })]

/-- Child map used by the idempotence witness. -/
def sampleChild : TMap :=
  [("b", { hash := "b", name := "B", save_path := "/old",
           category := "", content_path := "/old/B" }),
   ("d", { hash := "d", name := "D", save_path := "/x",
           category := "", content_path := "/x/D" })]

-- -------------------------------------------------------------------------
-- Map lemmas
-- -------------------------------------------------------------------------

theorem lookupKey_eraseKey (k k' : String) (l : TMap) :
    lookupKey k' (eraseKey k l) =
      if k = k' then none else lookupKey k' l := by
  induction l with
  | nil => simp [lookupKey, eraseKey]
  | cons p rest ih =>
    obtain ⟨a, b⟩ := p
    by_cases hak : a = k
    · subst hak
      by_cases hkk : a = k'
      · subst hkk
        simp [lookupKey, eraseKey, ih]
      · simp [lookupKey, eraseKey, hkk, ih]
    · by_cases hak' : a = k'
      · subst hak'
        have hka : ¬ k = a := fun h => hak h.symm
        simp [lookupKey, eraseKey, hak, hka]
      · by_cases hkk : k = k'
        · subst hkk
          simp [lookupKey, eraseKey, hak, hak', ih]
        · simp [lookupKey, eraseKey, hak, hak', hkk, ih]

theorem lookupKey_insertKey (k k' : String) (v : TorrentEntry) (l : TMap) :
    lookupKey k' (insertKey k v l) =
      if k = k' then some v else lookupKey k' l := by
  by_cases hkk : k = k' <;>
    simp [insertKey, lookupKey, hkk, lookupKey_eraseKey]

theorem modifyKey_cons (k : String) (f : TorrentEntry → TorrentEntry)
    (p : String × TorrentEntry) (rest : TMap) :
    modifyKey k f (p :: rest) =
      (if p.1 = k then (p.1, f p.2) else p) :: modifyKey k f rest := rfl

theorem lookupKey_modifyKey (k k' : String) (f : TorrentEntry → TorrentEntry)
    (l : TMap) :
    lookupKey k' (modifyKey k f l) =
      if k = k' then (lookupKey k' l).map f else lookupKey k' l := by
  induction l with
  | nil => simp [lookupKey, modifyKey]
  | cons p rest ih =>
    obtain ⟨a, b⟩ := p
    rw [modifyKey_cons]
    by_cases hak : a = k
    · subst hak
      by_cases hkk : a = k'
      · subst hkk
        simp [lookupKey, ih]
      · simp [lookupKey, hkk, ih]
    · by_cases hak' : a = k'
      · subst hak'
        have hka : ¬ k = a := fun h => hak h.symm
        simp [lookupKey, hak, hka]
      · by_cases hkk : k = k'
        · subst hkk
          simp [lookupKey, hak, hak', ih]
        · simp [lookupKey, hak, hak', hkk, ih]

theorem lookupKey_isSome_iff (k : String) (l : TMap) :
    (lookupKey k l).isSome = true ↔ ∃ p ∈ l, p.1 = k := by
  induction l with
  | nil => simp [lookupKey]
  | cons p rest ih =>
    by_cases hpk : p.1 = k <;> simp_all [lookupKey]

/-- Membership in a map with distinct keys is exactly a successful lookup. -/
theorem mem_iff_lookupKey_of_nodup (l : TMap)
    (hnd : (l.map Prod.fst).Nodup) (k : String) (v : TorrentEntry) :
    (k, v) ∈ l ↔ lookupKey k l = some v := by
  induction l with
  | nil => simp [lookupKey]
  | cons p rest ih =>
    obtain ⟨a, b⟩ := p
    simp only [List.map_cons, List.nodup_cons] at hnd
    by_cases hak : a = k
    · subst hak
      constructor
      · intro h
        rcases List.mem_cons.mp h with h1 | h2
        · injection h1 with h1a h1b
          subst h1b
          simp [lookupKey]
        · exact absurd (List.mem_map_of_mem Prod.fst h2) (by simpa using hnd.1)
      · intro h
        simp only [lookupKey, if_pos rfl] at h
        injection h with hbv
        subst hbv
        exact List.mem_cons_self _ _
    · simp only [List.mem_cons, lookupKey, if_neg hak]
      rw [← ih hnd.2]
      constructor
      · rintro (h | h)
        · exact absurd (congrArg Prod.fst h).symm hak
        · exact h
      · exact fun h => Or.inr h

-- -------------------------------------------------------------------------
-- Master fetch lemmas (used by C5 / C6)
-- -------------------------------------------------------------------------

theorem buildMasterMap_lookup_none (minS : Int) (tr : Bool)
    (ts : List RawTorrent) (h : String)
    (hall : ∀ t ∈ ts, t.hash = h → masterKeeps minS tr t = false) :
    lookupKey h (buildMasterMap minS tr ts) = none := by
  suffices H : ∀ acc : TMap, lookupKey h acc = none →
      lookupKey h (ts.foldl
        (fun acc t => if masterKeeps minS tr t then
          insertKey t.hash (torrentToEntry t) acc else acc) acc) = none by
    exact H [] rfl
  induction ts with
  | nil => intro acc hacc; simpa using hacc
  | cons t rest ih =>
    intro acc hacc
    simp only [List.mem_cons] at hall
    simp only [List.foldl_cons]
    by_cases hk : masterKeeps minS tr t = true
    · have hth : t.hash ≠ h := by
        intro hEq
        exact absurd hk (by simp [hall t (Or.inl rfl) hEq])
      refine ih (fun t' ht' h' => hall t' (Or.inr ht') h') _ ?_
      rw [hk, if_pos rfl, lookupKey_insertKey, if_neg hth]
      exact hacc
    · rw [if_neg hk]
      exact ih (fun t' ht' h' => hall t' (Or.inr ht') h') acc hacc

theorem buildMasterMap_lookup_isSome (minS : Int) (tr : Bool)
    (ts : List RawTorrent) (t : RawTorrent) (ht : t ∈ ts)
    (hk : masterKeeps minS tr t = true) :
    (lookupKey t.hash (buildMasterMap minS tr ts)).isSome = true := by
  suffices H : ∀ (l : List RawTorrent) (acc : TMap),
      (t ∈ l ∨ (lookupKey t.hash acc).isSome = true) →
      (lookupKey t.hash (l.foldl
        (fun acc t' => if masterKeeps minS tr t' then
          insertKey t'.hash (torrentToEntry t') acc else acc) acc)).isSome
        = true by
    exact H ts [] (Or.inl ht)
  intro l
  induction l with
  | nil =>
    intro acc hacc
    rcases hacc with h0 | h0
    · cases h0
    · simpa using h0
  | cons t' rest ih =>
    intro acc hacc
    simp only [List.foldl_cons]
    rcases hacc with h0 | h0
    · rcases List.mem_cons.mp h0 with rfl | hmem
      · refine ih _ (Or.inr ?_)
        rw [hk, if_pos rfl, lookupKey_insertKey, if_pos rfl]
        rfl
      · exact ih _ (Or.inl hmem)
    · refine ih _ (Or.inr ?_)
      by_cases hk' : masterKeeps minS tr t' = true
      · rw [hk', if_pos rfl, lookupKey_insertKey]
        by_cases hth : t'.hash = t.hash
        · simp [hth]
        · simpa [hth] using h0
      · simpa [hk'] using h0

theorem attachFilePriorities_lookup (files : String → Option (List Int))
    (m : TMap) (h : String) :
    lookupKey h (attachFilePriorities files m) =
      (lookupKey h m).map (fun e =>
        match files h with
        | some ps => { e with file_priorities := some ps }
        | none => e) := by
  induction m with
  | nil => simp [lookupKey, attachFilePriorities]
  | cons p rest ih =>
    by_cases hpk : p.1 = h
    · subst hpk
      cases hfp : files p.1 <;>
        simp [lookupKey, attachFilePriorities, hfp]
    · cases hfp : files p.1 <;>
        simp_all [lookupKey, attachFilePriorities]

theorem fetchMasterTorrents_lookup_none (files : String → Option (List Int))
    (ts : List RawTorrent) (minS : Int) (lf tr : Bool) (h : String)
    (hall : ∀ t ∈ ts, t.hash = h → masterKeeps minS tr t = false) :
    lookupKey h (fetchMasterTorrents files ts minS lf tr) = none := by
  unfold fetchMasterTorrents
  have hb := buildMasterMap_lookup_none minS tr ts h hall
  cases lf <;> simp [attachFilePriorities_lookup, hb]

theorem attachFilePriorities_isSome (files : String → Option (List Int))
    (m : TMap) (h : String) :
    (lookupKey h (attachFilePriorities files m)).isSome
      = (lookupKey h m).isSome := by
  rw [attachFilePriorities_lookup]
  cases lookupKey h m <;> simp

theorem fetchMasterTorrents_lookup_isSome (files : String → Option (List Int))
    (ts : List RawTorrent) (minS : Int) (lf tr : Bool) (t : RawTorrent)
    (ht : t ∈ ts) (hk : masterKeeps minS tr t = true) :
    (lookupKey t.hash (fetchMasterTorrents files ts minS lf tr)).isSome
      = true := by
  have hb := buildMasterMap_lookup_isSome minS tr ts t ht hk
  unfold fetchMasterTorrents
  cases lf
  · simpa using hb
  · simpa [attachFilePriorities_isSome] using hb

/-- A torrent whose seeding time is below the threshold is never kept,
regardless of its state or progress. -/
theorem masterKeeps_false_of_seeding_below (minS : Int) (tr : Bool)
    (t : RawTorrent) (hseed : t.seeding_time < minS) :
    masterKeeps minS tr t = false := by
  simp [masterKeeps, hseed]

/-- With the stopped-as-removed gate on, a paused/stopped torrent is never
kept, regardless of progress or seeding time. -/
theorem masterKeeps_false_of_paused (minS : Int) (t : RawTorrent)
    (hp : pausedStates.contains (pyLower t.state) = true) :
    masterKeeps minS true t = false := by
  have hp' : (pyLower t.state) ∈ pausedStates := by simpa using hp
  simp [masterKeeps, hp']

-- -------------------------------------------------------------------------
-- C5 / C6
-- -------------------------------------------------------------------------

/-- C5: in the master snapshot, a torrent with accumulated seeding time
strictly below the threshold is excluded from the map regardless of its
state or progress; a torrent in state "seeding" with seeding time exactly
equal to the threshold is included; and (with the stopped-as-removed gate
off) the keep decision is exactly: state in the completed/seeding family or
progress complete, and seeding time at or above the threshold
(boundary inclusive). -/
theorem fetchMaster_seeding_threshold_boundary
    (files : String → Option (List Int)) (ts : List RawTorrent)
    (minS : Int) (lf tr : Bool) (t : RawTorrent) (ht : t ∈ ts)
    (huniq : ∀ t' ∈ ts, t'.hash = t.hash → t' = t) :
    (t.seeding_time < minS →
      lookupKey t.hash (fetchMasterTorrents files ts minS lf tr) = none) ∧
    ((pyLower t.state) = "seeding" → t.seeding_time = minS →
      (lookupKey t.hash (fetchMasterTorrents files ts minS lf tr)).isSome
        = true) ∧
    (tr = false →
      (masterKeeps minS tr t = true ↔
        (((pyLower t.state) ∈ completedStates ∨ 1 ≤ t.progress) ∧
          minS ≤ t.seeding_time))) := by
  refine ⟨?_, ?_, ?_⟩
  · intro hseed
    exact fetchMasterTorrents_lookup_none files ts minS lf tr t.hash
      (fun t' ht' hh => by
        rw [huniq t' ht' hh]
        exact masterKeeps_false_of_seeding_below minS tr t hseed)
  · intro hst hseed
    apply fetchMasterTorrents_lookup_isSome files ts minS lf tr t ht
    have h1 : pausedStates.contains "seeding" = false := by decide
    have h2 : completedStates.contains "seeding" = true := by decide
    have h3 : ¬ (t.seeding_time < minS) := by omega
    unfold masterKeeps
    rw [hst, h1, h2]
    simp [h3]
  · intro htr
    subst htr
    unfold masterKeeps
    split_ifs with h1 h2 h3
    · simp at h1
    · simp only [Bool.and_eq_true, Bool.not_eq_true] at h2
      constructor
      · intro h; cases h
      · rintro ⟨hor, -⟩
        exfalso
        rcases hor with hm | hp1
        · have : completedStates.contains (pyLower t.state) = true := by
            simpa using hm
          rw [this] at h2; cases h2.1
        · have : t.progress < 1 := of_decide_eq_true h2.2
          exact absurd hp1 (not_le.mpr this)
    · constructor
      · intro h; cases h
      · rintro ⟨-, hsle⟩
        exact absurd hsle (by omega)
    · constructor
      · intro _
        refine ⟨?_, by omega⟩
        simp only [Bool.and_eq_true, Bool.not_eq_true] at h2
        by_cases hm : (pyLower t.state) ∈ completedStates
        · exact Or.inl hm
        · right
          have hc : completedStates.contains (pyLower t.state) = false := by
            simpa using hm
          by_cases hp1 : t.progress < 1
          · exact absurd ⟨by simpa using hm, decide_eq_true hp1⟩ h2
          · exact not_lt.mp hp1
      · intro _; rfl

/-- Concrete instance for fetchMaster_seeding_threshold_boundary: a single
torrent in state "seeding" with seeding_time equal to the threshold is
included in the master map. -/
theorem fetchMaster_seeding_threshold_boundary_witness :
    (lookupKey "h5"
      (fetchMasterTorrents (fun _ => none)
        [{ hash := "h5", state := "seeding", seeding_time := 600 }]
        600 true false)).isSome = true :=
  (fetchMaster_seeding_threshold_boundary (fun _ => none)
      [{ hash := "h5", state := "seeding", seeding_time := 600 }]
      600 true false
      { hash := "h5", state := "seeding", seeding_time := 600 }
      (by decide) (by decide)).2.1 (by decide) rfl

/-- C6: with treat-stopped-as-removed enabled, a master torrent in a
paused/stopped state is excluded from the master map regardless of its
progress or seeding time (even if otherwise eligible). -/
theorem fetchMaster_stopped_treated_as_removed
    (files : String → Option (List Int)) (ts : List RawTorrent)
    (minS : Int) (lf : Bool) (t : RawTorrent) (ht : t ∈ ts)
    (hp : (pyLower t.state) ∈ pausedStates)
    (huniq : ∀ t' ∈ ts, t'.hash = t.hash → t' = t) :
    lookupKey t.hash (fetchMasterTorrents files ts minS lf true) = none := by
  refine fetchMasterTorrents_lookup_none files ts minS lf true t.hash
    (fun t' ht' hh => ?_)
  rw [huniq t' ht' hh]
  exact masterKeeps_false_of_paused minS t (by simpa using hp)

/-- Concrete instance for fetchMaster_stopped_treated_as_removed: a
completed pausedup torrent with ample seeding time is still excluded once
the option is on. -/
theorem fetchMaster_stopped_treated_as_removed_witness :
    lookupKey "h6"
      (fetchMasterTorrents (fun _ => none)
        [{ hash := "h6", state := "pausedup", progress := 1,
           seeding_time := 9999 }] 0 false true) = none :=
  fetchMaster_stopped_treated_as_removed (fun _ => none)
    [{ hash := "h6", state := "pausedup", progress := 1,
       seeding_time := 9999 }] 0 false
    { hash := "h6", state := "pausedup", progress := 1,
      seeding_time := 9999 }
    (by decide) (by decide) (by decide)

-- -------------------------------------------------------------------------
-- C1 / C4
-- -------------------------------------------------------------------------

/-- C1 (code bug evidence): the claim — every sync field the core reads is
provided by the configuration object — fails on the code.  run_sync reads
cfg.sync.sync_file_selections and cfg.sync.treat_stopped_as_removed, and
the CLI and daemon loop read cfg.sync.dry_run and
cfg.sync.daemon_run_interval_minutes, but the SyncConfig dataclass built
by load_config defines none of these four fields, so those attribute reads
are not total. -/
theorem sync_config_fields_missing :
    ("sync_file_selections" ∈ runSyncSyncFieldReads ∧
      syncFieldReadTotal "sync_file_selections" = false) ∧
    ("treat_stopped_as_removed" ∈ runSyncSyncFieldReads ∧
      syncFieldReadTotal "treat_stopped_as_removed" = false) ∧
    ("dry_run" ∈ daemonSyncFieldReads ∧
      syncFieldReadTotal "dry_run" = false) ∧
    ("daemon_run_interval_minutes" ∈ daemonSyncFieldReads ∧
      syncFieldReadTotal "daemon_run_interval_minutes" = false) ∧
    (syncFieldReadTotal "min_seeding_time_minutes" = true ∧
      syncFieldReadTotal "skip_hash_check" = true) := by
  decide

/-- C4 counterexample: when reloading the configuration fails, the daemon
loop body does not run the cycle at all — run_sync is not invoked with the
previous configuration (or any configuration), contradicting the claim
that the cycle still runs with the prior configuration. -/
theorem daemon_reload_failure_counterexample :
    (daemonLoopStep (Except.error "bad config")
      (some { dry_run := true, daemon_run_interval_minutes := 30 })
      none).ranSync = false := rfl

/-- C4 amended: when reloading fails, the daemon loop logs the failure and
keeps the previous configuration value unchanged, but skips that cycle
(run_sync is not invoked), sleeps 60 seconds, and continues — it never
terminates because of the bad reload. -/
theorem daemon_reload_failure_behavior (e : String)
    (prev : Option DaemonSyncConfig) (ovr : Option Bool) :
    daemonLoopStep (Except.error e) prev ovr =
      { ranSync := false, dryRunUsed := none, cfgUsed := none,
        nextPrev := prev, sleepSeconds := 60, exits := false } := rfl

-- -------------------------------------------------------------------------
-- Lemmas for the diff/apply state model (C7, C10)
-- -------------------------------------------------------------------------

theorem lookupKey_some_mem (k : String) (v : TorrentEntry) (l : TMap)
    (h : lookupKey k l = some v) : (k, v) ∈ l := by
  induction l with
  | nil => cases h
  | cons p rest ih =>
    by_cases hpk : p.1 = k
    · simp only [lookupKey, if_pos hpk] at h
      injection h with hv
      have hpe : (k, v) = p := by
        obtain ⟨a, b⟩ := p
        simp only at hpk hv
        simp [hpk, hv]
      rw [hpe]
      exact List.mem_cons_self _ _
    · simp only [lookupKey, if_neg hpk] at h
      exact List.mem_cons_of_mem _ (ih h)

theorem lookupKey_isSome_of_mem (p : String × TorrentEntry) (l : TMap)
    (h : p ∈ l) : (lookupKey p.1 l).isSome = true := by
  rw [lookupKey_isSome_iff]
  exact ⟨p, h, rfl⟩

theorem lookupKey_of_nodup_mem (l : TMap)
    (hnd : (l.map Prod.fst).Nodup) (p : String × TorrentEntry)
    (hp : p ∈ l) : lookupKey p.1 l = some p.2 :=
  (mem_iff_lookupKey_of_nodup l hnd p.1 p.2).mp hp

theorem mem_eraseKey (k : String) (l : TMap) (p : String × TorrentEntry) :
    p ∈ eraseKey k l ↔ p ∈ l ∧ p.1 ≠ k := by
  induction l with
  | nil => simp [eraseKey]
  | cons q rest ih =>
    by_cases hqk : q.1 = k
    · rw [eraseKey, if_pos hqk, ih]
      constructor
      · rintro ⟨hp, hne⟩
        exact ⟨List.mem_cons_of_mem _ hp, hne⟩
      · rintro ⟨hp, hne⟩
        rcases List.mem_cons.mp hp with rfl | hp'
        · exact absurd hqk hne
        · exact ⟨hp', hne⟩
    · rw [eraseKey, if_neg hqk]
      constructor
      · intro hmem
        rcases List.mem_cons.mp hmem with rfl | hp'
        · exact ⟨List.mem_cons_self _ _, hqk⟩
        · exact ⟨List.mem_cons_of_mem _ (ih.mp hp').1, (ih.mp hp').2⟩
      · rintro ⟨hp, hne⟩
        rcases List.mem_cons.mp hp with rfl | hp'
        · exact List.mem_cons_self _ _
        · exact List.mem_cons_of_mem _ (ih.mpr ⟨hp', hne⟩)

-- Deletes fold.

theorem applyDeletesState_mem (es : List TorrentEntry) (c : TMap)
    (p : String × TorrentEntry) (hp : p ∈ applyDeletesState es c) :
    p ∈ c ∧ ∀ e ∈ es, e.hash ≠ p.1 := by
  induction es generalizing c with
  | nil => exact ⟨hp, by simp⟩
  | cons e rest ih =>
    have h1 := ih (eraseKey e.hash c) hp
    have h2 := (mem_eraseKey e.hash c p).mp h1.1
    refine ⟨h2.1, ?_⟩
    intro e' he'
    rcases List.mem_cons.mp he' with rfl | he''
    · exact fun hEq => h2.2 hEq.symm
    · exact h1.2 e' he''

theorem applyDeletesState_lookup_of_no_hash (es : List TorrentEntry)
    (c : TMap) (h : String) (hno : ∀ e ∈ es, e.hash ≠ h) :
    lookupKey h (applyDeletesState es c) = lookupKey h c := by
  induction es generalizing c with
  | nil => rfl
  | cons e rest ih =>
    simp only [List.mem_cons] at hno
    have : lookupKey h (eraseKey e.hash c) = lookupKey h c := by
      rw [lookupKey_eraseKey, if_neg (hno e (Or.inl rfl))]
    rw [applyDeletesState, List.foldl_cons,
      ← applyDeletesState, ih _ (fun e' he' => hno e' (Or.inr he')), this]

theorem applyDeletesState_lookup_none (es : List TorrentEntry) (c : TMap)
    (h : String) (hc : lookupKey h c = none) :
    lookupKey h (applyDeletesState es c) = none := by
  induction es generalizing c with
  | nil => exact hc
  | cons e rest ih =>
    rw [applyDeletesState, List.foldl_cons, ← applyDeletesState]
    refine ih _ ?_
    rw [lookupKey_eraseKey]
    split <;> simp [hc]

theorem applyDeletesState_lookup_none_of_mem (es : List TorrentEntry)
    (c : TMap) (h : String) (hin : ∃ e ∈ es, e.hash = h) :
    lookupKey h (applyDeletesState es c) = none := by
  induction es generalizing c with
  | nil => simp at hin
  | cons e rest ih =>
    rw [applyDeletesState, List.foldl_cons, ← applyDeletesState]
    obtain ⟨e', he', hh⟩ := hin
    rcases List.mem_cons.mp he' with rfl | hmem
    · by_cases hr : ∃ x ∈ rest, x.hash = h
      · exact ih _ hr
      · rw [applyDeletesState_lookup_of_no_hash rest _ h
          (fun x hx => fun hEq => hr ⟨x, hx, hEq⟩)]
        rw [lookupKey_eraseKey, if_pos hh]
    · exact ih _ ⟨e', hmem, hh⟩

-- Adds fold.

theorem mem_insertKey (k : String) (v : TorrentEntry) (l : TMap)
    (p : String × TorrentEntry) (hp : p ∈ insertKey k v l) :
    p = (k, v) ∨ p ∈ l := by
  rcases List.mem_cons.mp hp with h | h
  · exact Or.inl h
  · exact Or.inr ((mem_eraseKey k l p).mp h).1

theorem applyAddsState_mem (es : List TorrentEntry) (c : TMap)
    (p : String × TorrentEntry) (hp : p ∈ applyAddsState es c) :
    (∃ e ∈ es, p = (e.hash, e)) ∨ p ∈ c := by
  induction es generalizing c with
  | nil => exact Or.inr hp
  | cons e rest ih =>
    rcases ih (insertKey e.hash e c) hp with h | h
    · obtain ⟨e', he', hpe⟩ := h
      exact Or.inl ⟨e', List.mem_cons_of_mem _ he', hpe⟩
    · rcases mem_insertKey e.hash e c p h with h' | h'
      · exact Or.inl ⟨e, List.mem_cons_self _ _, h'⟩
      · exact Or.inr h'

theorem applyAddsState_lookup_of_no_hash (es : List TorrentEntry)
    (c : TMap) (h : String) (hno : ∀ e ∈ es, e.hash ≠ h) :
    lookupKey h (applyAddsState es c) = lookupKey h c := by
  induction es generalizing c with
  | nil => rfl
  | cons e rest ih =>
    simp only [List.mem_cons] at hno
    rw [applyAddsState, List.foldl_cons, ← applyAddsState,
      ih _ (fun e' he' => hno e' (Or.inr he')), lookupKey_insertKey,
      if_neg (hno e (Or.inl rfl))]

theorem applyAddsState_lookup_isSome (es : List TorrentEntry) (c : TMap)
    (h : String)
    (hin : (∃ e ∈ es, e.hash = h) ∨ (lookupKey h c).isSome = true) :
    (lookupKey h (applyAddsState es c)).isSome = true := by
  induction es generalizing c with
  | nil =>
    rcases hin with h0 | h0
    · simp at h0
    · exact h0
  | cons e rest ih =>
    rw [applyAddsState, List.foldl_cons, ← applyAddsState]
    rcases hin with ⟨e', he', hh⟩ | h0
    · rcases List.mem_cons.mp he' with rfl | hmem
      · refine ih _ (Or.inr ?_)
        rw [lookupKey_insertKey, if_pos hh]
        rfl
      · exact ih _ (Or.inl ⟨e', hmem, hh⟩)
    · refine ih _ (Or.inr ?_)
      rw [lookupKey_insertKey]
      split
      · rfl
      · exact h0

theorem applyAddsState_lookup_of_nodup (es : List TorrentEntry) (c : TMap)
    (hnd : (es.map (fun e => e.hash)).Nodup) (e : TorrentEntry)
    (he : e ∈ es) : lookupKey e.hash (applyAddsState es c) = some e := by
  induction es generalizing c with
  | nil => cases he
  | cons e0 rest ih =>
    simp only [List.map_cons, List.nodup_cons] at hnd
    rw [applyAddsState, List.foldl_cons, ← applyAddsState]
    rcases List.mem_cons.mp he with rfl | hmem
    · rw [applyAddsState_lookup_of_no_hash rest _ e.hash
        (fun x hx hEq => hnd.1 (hEq ▸ List.mem_map_of_mem _ hx)),
        lookupKey_insertKey, if_pos rfl]
    · exact ih _ hnd.2 hmem

-- Modify fold.

theorem modifyFold_lookup_of_no_key {α : Type} (key : α → String)
    (f : α → TorrentEntry → TorrentEntry) (xs : List α) (c : TMap)
    (h : String) (hno : ∀ x ∈ xs, key x ≠ h) :
    lookupKey h (modifyFold key f xs c) = lookupKey h c := by
  induction xs generalizing c with
  | nil => rfl
  | cons x rest ih =>
    simp only [List.mem_cons] at hno
    rw [modifyFold, List.foldl_cons, ← modifyFold,
      ih _ (fun y hy => hno y (Or.inr hy)), lookupKey_modifyKey,
      if_neg (hno x (Or.inl rfl))]

theorem modifyFold_isSome {α : Type} (key : α → String)
    (f : α → TorrentEntry → TorrentEntry) (xs : List α) (c : TMap)
    (h : String) :
    (lookupKey h (modifyFold key f xs c)).isSome
      = (lookupKey h c).isSome := by
  induction xs generalizing c with
  | nil => rfl
  | cons x rest ih =>
    rw [modifyFold, List.foldl_cons, ← modifyFold, ih, lookupKey_modifyKey]
    split
    · cases lookupKey h c <;> rfl
    · rfl

theorem modifyFold_keys {α : Type} (key : α → String)
    (f : α → TorrentEntry → TorrentEntry) (xs : List α) (c : TMap) :
    (modifyFold key f xs c).map Prod.fst = c.map Prod.fst := by
  induction xs generalizing c with
  | nil => rfl
  | cons x rest ih =>
    rw [modifyFold, List.foldl_cons, ← modifyFold, ih]
    induction c with
    | nil => rfl
    | cons p cr ihc =>
      rw [modifyKey_cons]
      simp only [List.map_cons, ihc]
      split <;> simp

theorem modifyFold_lookup_of_nodup {α : Type} (key : α → String)
    (f : α → TorrentEntry → TorrentEntry) (xs : List α) (c : TMap)
    (hnd : (xs.map key).Nodup) (x : α) (hx : x ∈ xs) :
    lookupKey (key x) (modifyFold key f xs c)
      = (lookupKey (key x) c).map (f x) := by
  induction xs generalizing c with
  | nil => cases hx
  | cons x0 rest ih =>
    simp only [List.map_cons, List.nodup_cons] at hnd
    rw [modifyFold, List.foldl_cons, ← modifyFold]
    rcases List.mem_cons.mp hx with rfl | hmem
    · rw [modifyFold_lookup_of_no_key key f rest _ (key x)
        (fun y hy hEq => hnd.1 (hEq ▸ List.mem_map_of_mem _ hy)),
        lookupKey_modifyKey, if_pos rfl]
    · rw [ih _ hnd.2 hmem]
      have hne : key x0 ≠ key x :=
        fun hEq => hnd.1 (hEq ▸ List.mem_map_of_mem _ hmem)
      rw [lookupKey_modifyKey, if_neg hne]

-- compute_diff component facts.

theorem to_delete_spec (m c : TMap) (n : String)
    (hWFc : ∀ p ∈ c, p.2.hash = p.1) (e : TorrentEntry)
    (he : e ∈ (compute_diff m c n).to_delete) :
    lookupKey e.hash m = none ∧ (lookupKey e.hash c).isSome = true := by
  simp only [compute_diff, List.mem_map, List.mem_filter] at he
  obtain ⟨p, ⟨hpc, hnone⟩, rfl⟩ := he
  rw [hWFc p hpc]
  exact ⟨Option.isNone_iff_eq_none.mp (by simpa using hnone),
    lookupKey_isSome_of_mem p c hpc⟩

theorem to_delete_covers (m c : TMap) (n : String) (p : String × TorrentEntry)
    (hp : p ∈ c) (hnone : lookupKey p.1 m = none) :
    p.2 ∈ (compute_diff m c n).to_delete := by
  simp only [compute_diff, List.mem_map, List.mem_filter]
  exact ⟨p, ⟨hp, by simp [hnone]⟩, rfl⟩

theorem to_add_spec (m c : TMap) (n : String)
    (hWFm : ∀ p ∈ m, p.2.hash = p.1) (hNDm : (m.map Prod.fst).Nodup)
    (e : TorrentEntry) (he : e ∈ (compute_diff m c n).to_add) :
    lookupKey e.hash m = some e ∧ lookupKey e.hash c = none := by
  simp only [compute_diff, List.mem_map, List.mem_filter] at he
  obtain ⟨p, ⟨hpm, hnone⟩, rfl⟩ := he
  rw [hWFm p hpm]
  exact ⟨lookupKey_of_nodup_mem m hNDm p hpm,
    Option.isNone_iff_eq_none.mp (by simpa using hnone)⟩

theorem to_add_covers (m c : TMap) (n : String) (p : String × TorrentEntry)
    (hp : p ∈ m) (hnone : lookupKey p.1 c = none) :
    p.2 ∈ (compute_diff m c n).to_add := by
  simp only [compute_diff, List.mem_map, List.mem_filter]
  exact ⟨p, ⟨hp, by simp [hnone]⟩, rfl⟩

theorem to_add_hash_nodup (m c : TMap) (n : String)
    (hWFm : ∀ p ∈ m, p.2.hash = p.1) (hNDm : (m.map Prod.fst).Nodup) :
    ((compute_diff m c n).to_add.map (fun e => e.hash)).Nodup := by
  simp only [compute_diff]
  rw [List.map_map]
  have : (m.filter (fun p => (lookupKey p.1 c).isNone)).map
      ((fun e => e.hash) ∘ Prod.snd)
      = (m.filter (fun p => (lookupKey p.1 c).isNone)).map Prod.fst := by
    apply List.map_congr_left
    intro p hp
    exact hWFm p (List.mem_of_mem_filter hp)
  rw [this]
  exact ((List.filter_sublist m).map Prod.fst).nodup hNDm

theorem commonPairs_spec (m c : TMap)
    (hWFm : ∀ p ∈ m, p.2.hash = p.1) (hNDm : (m.map Prod.fst).Nodup)
    (pr : TorrentEntry × TorrentEntry) (hpr : pr ∈ commonPairs m c) :
    lookupKey pr.1.hash m = some pr.1 ∧ lookupKey pr.1.hash c = some pr.2 := by
  simp only [commonPairs, List.mem_filterMap] at hpr
  obtain ⟨p, hpm, hmap⟩ := hpr
  cases hlc : lookupKey p.1 c with
  | none => rw [hlc] at hmap; cases hmap
  | some ce =>
    rw [hlc] at hmap
    simp only [Option.map_some'] at hmap
    injection hmap with hmap
    subst hmap
    have hh : p.2.hash = p.1 := hWFm p hpm
    refine ⟨?_, ?_⟩
    · show lookupKey p.2.hash m = some p.2
      rw [hh]
      exact lookupKey_of_nodup_mem m hNDm p hpm
    · show lookupKey p.2.hash c = some ce
      rw [hh]
      exact hlc

theorem commonPairs_covers (m c : TMap) (p : String × TorrentEntry)
    (hp : p ∈ m) (ce : TorrentEntry) (hce : lookupKey p.1 c = some ce) :
    (p.2, ce) ∈ commonPairs m c := by
  simp only [commonPairs, List.mem_filterMap]
  exact ⟨p, hp, by rw [hce]; rfl⟩

theorem commonPairs_key_mem (m c : TMap)
    (hWFm : ∀ p ∈ m, p.2.hash = p.1)
    (pr : TorrentEntry × TorrentEntry) (hpr : pr ∈ commonPairs m c) :
    pr.1.hash ∈ m.map Prod.fst := by
  simp only [commonPairs, List.mem_filterMap] at hpr
  obtain ⟨p, hpm, hmap⟩ := hpr
  cases hlc : lookupKey p.1 c with
  | none => rw [hlc] at hmap; cases hmap
  | some ce =>
    rw [hlc] at hmap
    simp only [Option.map_some'] at hmap
    injection hmap with hmap
    subst hmap
    rw [show ((p.2, ce) : TorrentEntry × TorrentEntry).1 = p.2 from rfl,
      hWFm p hpm]
    exact List.mem_map_of_mem Prod.fst hpm

theorem commonPairs_keys_nodup (m c : TMap)
    (hWFm : ∀ p ∈ m, p.2.hash = p.1) (hNDm : (m.map Prod.fst).Nodup) :
    ((commonPairs m c).map (fun pr => pr.1.hash)).Nodup := by
  induction m with
  | nil => simp [commonPairs]
  | cons p rest ih =>
    simp only [List.map_cons, List.nodup_cons] at hNDm
    have hWFr : ∀ q ∈ rest, q.2.hash = q.1 :=
      fun q hq => hWFm q (List.mem_cons_of_mem _ hq)
    have htail := ih hWFr hNDm.2
    rw [commonPairs, List.filterMap_cons]
    cases hlc : lookupKey p.1 c with
    | none => exact htail
    | some ce =>
      simp only [Option.map_some', List.map_cons]
      rw [List.nodup_cons]
      refine ⟨?_, htail⟩
      intro hmem
      rw [List.mem_map] at hmem
      obtain ⟨pr, hpr, hkey⟩ := hmem
      have := commonPairs_key_mem rest c hWFr pr hpr
      rw [hkey, hWFm p (List.mem_cons_self _ _)] at this
      exact hNDm.1 this

theorem to_recategorize_keys_nodup (m c : TMap) (n : String)
    (hWFm : ∀ p ∈ m, p.2.hash = p.1) (hNDm : (m.map Prod.fst).Nodup) :
    ((compute_diff m c n).to_recategorize.map (fun pr => pr.1.hash)).Nodup := by
  simp only [compute_diff]
  exact ((List.filter_sublist _).map _).nodup
    (commonPairs_keys_nodup m c hWFm hNDm)

theorem to_relocate_keys_nodup (m c : TMap) (n : String)
    (hWFm : ∀ p ∈ m, p.2.hash = p.1) (hNDm : (m.map Prod.fst).Nodup) :
    ((compute_diff m c n).to_relocate.map (fun pr => pr.1.hash)).Nodup := by
  simp only [compute_diff]
  exact ((List.filter_sublist _).map _).nodup
    (commonPairs_keys_nodup m c hWFm hNDm)

-- Stage-by-stage lookup characterization of applyDiffState.

theorem deletes_stage_lookup_some (m c : TMap) (n : String)
    (hWFc : ∀ p ∈ c, p.2.hash = p.1) (h : String)
    (hm : (lookupKey h m).isSome = true) :
    lookupKey h (applyDeletesState (compute_diff m c n).to_delete c)
      = lookupKey h c := by
  refine applyDeletesState_lookup_of_no_hash _ c h (fun e he hEq => ?_)
  have hdn := (to_delete_spec m c n hWFc e he).1
  rw [hEq] at hdn
  rw [hdn] at hm
  cases hm

theorem deletes_stage_lookup_none (m c : TMap) (n : String)
    (hWFc : ∀ p ∈ c, p.2.hash = p.1) (h : String)
    (hm : lookupKey h m = none) :
    lookupKey h (applyDeletesState (compute_diff m c n).to_delete c)
      = none := by
  cases hc : lookupKey h c with
  | none => exact applyDeletesState_lookup_none _ c h hc
  | some ce =>
    have hmem : (h, ce) ∈ c := lookupKey_some_mem h ce c hc
    have hdel : ce ∈ (compute_diff m c n).to_delete :=
      to_delete_covers m c n (h, ce) hmem hm
    exact applyDeletesState_lookup_none_of_mem _ c h
      ⟨ce, hdel, hWFc (h, ce) hmem⟩

theorem adds_stage_lookup_none (m c : TMap) (n : String)
    (hWFm : ∀ p ∈ m, p.2.hash = p.1) (hWFc : ∀ p ∈ c, p.2.hash = p.1)
    (hNDm : (m.map Prod.fst).Nodup) (h : String)
    (hm : lookupKey h m = none) :
    lookupKey h (applyAddsState (compute_diff m c n).to_add
      (applyDeletesState (compute_diff m c n).to_delete c)) = none := by
  have hnoadd : ∀ e ∈ (compute_diff m c n).to_add, e.hash ≠ h := by
    intro e he hEq
    have := (to_add_spec m c n hWFm hNDm e he).1
    rw [hEq, hm] at this
    cases this
  rw [applyAddsState_lookup_of_no_hash _ _ h hnoadd,
    deletes_stage_lookup_none m c n hWFc h hm]

theorem adds_stage_lookup_add (m c : TMap) (n : String)
    (hWFm : ∀ p ∈ m, p.2.hash = p.1) (hWFc : ∀ p ∈ c, p.2.hash = p.1)
    (hNDm : (m.map Prod.fst).Nodup) (h : String) (me : TorrentEntry)
    (hm : lookupKey h m = some me) (hc : lookupKey h c = none) :
    lookupKey h (applyAddsState (compute_diff m c n).to_add
      (applyDeletesState (compute_diff m c n).to_delete c)) = some me := by
  have hmem : (h, me) ∈ m := lookupKey_some_mem h me m hm
  have hadd : me ∈ (compute_diff m c n).to_add :=
    to_add_covers m c n (h, me) hmem hc
  have hh : me.hash = h := hWFm (h, me) hmem
  have := applyAddsState_lookup_of_nodup (compute_diff m c n).to_add
    (applyDeletesState (compute_diff m c n).to_delete c)
    (to_add_hash_nodup m c n hWFm hNDm) me hadd
  rw [hh] at this
  exact this

theorem adds_stage_lookup_common (m c : TMap) (n : String)
    (hWFm : ∀ p ∈ m, p.2.hash = p.1) (hWFc : ∀ p ∈ c, p.2.hash = p.1)
    (hNDm : (m.map Prod.fst).Nodup) (h : String) (me ce : TorrentEntry)
    (hm : lookupKey h m = some me) (hc : lookupKey h c = some ce) :
    lookupKey h (applyAddsState (compute_diff m c n).to_add
      (applyDeletesState (compute_diff m c n).to_delete c)) = some ce := by
  have hnoadd : ∀ e ∈ (compute_diff m c n).to_add, e.hash ≠ h := by
    intro e he hEq
    have := (to_add_spec m c n hWFm hNDm e he).2
    rw [hEq, hc] at this
    cases this
  rw [applyAddsState_lookup_of_no_hash _ _ h hnoadd,
    deletes_stage_lookup_some m c n hWFc h (by rw [hm]; rfl), hc]

theorem recat_stage_lookup (m c : TMap) (n : String)
    (hWFm : ∀ p ∈ m, p.2.hash = p.1) (hWFc : ∀ p ∈ c, p.2.hash = p.1)
    (hNDm : (m.map Prod.fst).Nodup) (h : String)
    (me ce : TorrentEntry) (hm : lookupKey h m = some me)
    (hc : lookupKey h c = some ce) :
    lookupKey h (applyRecategorizeState (compute_diff m c n).to_recategorize
        (applyAddsState (compute_diff m c n).to_add
          (applyDeletesState (compute_diff m c n).to_delete c))) =
      some { ce with category := me.category } := by
  have hbase := adds_stage_lookup_common m c n hWFm hWFc hNDm h me ce hm hc
  have hmem : (h, me) ∈ m := lookupKey_some_mem h me m hm
  have hh : me.hash = h := hWFm (h, me) hmem
  by_cases hcat : me.category = ce.category
  · have hno : ∀ pr ∈ (compute_diff m c n).to_recategorize,
        pr.1.hash ≠ h := by
      intro pr hpr hEq
      simp only [compute_diff] at hpr
      have hcm := commonPairs_spec m c hWFm hNDm pr
        (List.mem_of_mem_filter hpr)
      rw [hEq, hm, hc] at hcm
      obtain ⟨h1, h2⟩ := hcm
      injection h1 with h1
      injection h2 with h2
      have hfl := (List.mem_filter.mp hpr).2
      rw [← h1, ← h2, hcat] at hfl
      simp at hfl
    rw [applyRecategorizeState, modifyFold_lookup_of_no_key _ _ _ _ h hno,
      hbase, hcat]
  · have hcommon : (me, ce) ∈ commonPairs m c :=
      commonPairs_covers m c (h, me) hmem ce hc
    have hrc : (me, ce) ∈ (compute_diff m c n).to_recategorize := by
      simp only [compute_diff]
      refine List.mem_filter.mpr ⟨hcommon, ?_⟩
      simp [hcat]
    have hml := modifyFold_lookup_of_nodup (fun pr => pr.1.hash)
      (fun pr ce' => { ce' with category := pr.1.category })
      (compute_diff m c n).to_recategorize
      (applyAddsState (compute_diff m c n).to_add
        (applyDeletesState (compute_diff m c n).to_delete c))
      (to_recategorize_keys_nodup m c n hWFm hNDm) (me, ce) hrc
    rw [show (fun (pr : TorrentEntry × TorrentEntry) => pr.1.hash) ((me, ce))
      = me.hash from rfl, hh, hbase] at hml
    rw [applyRecategorizeState, hml]
    rfl

theorem recat_stage_lookup_master_only (m c : TMap) (n : String)
    (hWFm : ∀ p ∈ m, p.2.hash = p.1) (hWFc : ∀ p ∈ c, p.2.hash = p.1)
    (hNDm : (m.map Prod.fst).Nodup) (h : String)
    (me : TorrentEntry) (hm : lookupKey h m = some me)
    (hc : lookupKey h c = none) :
    lookupKey h (applyRecategorizeState (compute_diff m c n).to_recategorize
        (applyAddsState (compute_diff m c n).to_add
          (applyDeletesState (compute_diff m c n).to_delete c))) =
      some me := by
  have hbase := adds_stage_lookup_add m c n hWFm hWFc hNDm h me hm hc
  have hno : ∀ pr ∈ (compute_diff m c n).to_recategorize,
      pr.1.hash ≠ h := by
    intro pr hpr hEq
    simp only [compute_diff] at hpr
    have hcm := commonPairs_spec m c hWFm hNDm pr
      (List.mem_of_mem_filter hpr)
    rw [hEq, hc] at hcm
    cases hcm.2
  rw [applyRecategorizeState, modifyFold_lookup_of_no_key _ _ _ _ h hno,
    hbase]

theorem reloc_stage_lookup (m c : TMap) (n : String)
    (hWFm : ∀ p ∈ m, p.2.hash = p.1) (hWFc : ∀ p ∈ c, p.2.hash = p.1)
    (hNDm : (m.map Prod.fst).Nodup) (h : String)
    (me ce : TorrentEntry) (hm : lookupKey h m = some me)
    (hc : lookupKey h c = some ce) :
    ∃ ce4, lookupKey h (applyDiffState (compute_diff m c n) c) = some ce4 ∧
      ce4.save_path = me.save_path ∧
      ce4.download_path = me.download_path := by
  have hbase := recat_stage_lookup m c n hWFm hWFc hNDm h me ce hm hc
  have hmem : (h, me) ∈ m := lookupKey_some_mem h me m hm
  have hh : me.hash = h := hWFm (h, me) hmem
  by_cases hpaths : me.save_path = ce.save_path ∧
      me.download_path = ce.download_path
  · have hno : ∀ pr ∈ (compute_diff m c n).to_relocate,
        pr.1.hash ≠ h := by
      intro pr hpr hEq
      simp only [compute_diff] at hpr
      have hcm := commonPairs_spec m c hWFm hNDm pr
        (List.mem_of_mem_filter hpr)
      rw [hEq, hm, hc] at hcm
      obtain ⟨h1, h2⟩ := hcm
      injection h1 with h1
      injection h2 with h2
      have hfl := (List.mem_filter.mp hpr).2
      rw [← h1, ← h2, hpaths.1, hpaths.2] at hfl
      simp at hfl
    refine ⟨{ ce with category := me.category }, ?_, hpaths.1.symm,
      hpaths.2.symm⟩
    rw [applyDiffState, applyRelocatesState,
      modifyFold_lookup_of_no_key _ _ _ _ h hno]
    exact hbase
  · have hcommon : (me, ce) ∈ commonPairs m c :=
      commonPairs_covers m c (h, me) hmem ce hc
    have hrl : (me, ce) ∈ (compute_diff m c n).to_relocate := by
      simp only [compute_diff]
      refine List.mem_filter.mpr ⟨hcommon, ?_⟩
      rw [not_and_or] at hpaths
      rcases hpaths with hp | hp <;> simp [hp]
    have hml := modifyFold_lookup_of_nodup (fun pr => pr.1.hash)
      (fun pr ce' =>
        { ce' with
            save_path :=
              if pr.1.save_path == pr.2.save_path then ce'.save_path
              else pr.1.save_path
            download_path :=
              if pr.1.download_path == pr.2.download_path then
                ce'.download_path
              else pr.1.download_path })
      (compute_diff m c n).to_relocate
      (applyRecategorizeState (compute_diff m c n).to_recategorize
        (applyAddsState (compute_diff m c n).to_add
          (applyDeletesState (compute_diff m c n).to_delete c)))
      (to_relocate_keys_nodup m c n hWFm hNDm) (me, ce) hrl
    rw [show (fun (pr : TorrentEntry × TorrentEntry) => pr.1.hash) ((me, ce))
      = me.hash from rfl, hh, hbase] at hml
    refine ⟨_, by rw [applyDiffState, applyRelocatesState, hml]; rfl, ?_, ?_⟩
    · show (if me.save_path == ce.save_path then
          ({ ce with category := me.category } : TorrentEntry).save_path
        else me.save_path) = me.save_path
      by_cases hsp : me.save_path = ce.save_path
      · simp [hsp]
      · simp [hsp]
    · show (if me.download_path == ce.download_path then
          ({ ce with category := me.category } : TorrentEntry).download_path
        else me.download_path) = me.download_path
      by_cases hdp : me.download_path = ce.download_path
      · simp [hdp]
      · simp [hdp]

theorem reloc_stage_lookup_master_only (m c : TMap) (n : String)
    (hWFm : ∀ p ∈ m, p.2.hash = p.1) (hWFc : ∀ p ∈ c, p.2.hash = p.1)
    (hNDm : (m.map Prod.fst).Nodup) (h : String)
    (me : TorrentEntry) (hm : lookupKey h m = some me)
    (hc : lookupKey h c = none) :
    lookupKey h (applyDiffState (compute_diff m c n) c) = some me := by
  have hbase := recat_stage_lookup_master_only m c n hWFm hWFc hNDm h me hm hc
  have hno : ∀ pr ∈ (compute_diff m c n).to_relocate, pr.1.hash ≠ h := by
    intro pr hpr hEq
    simp only [compute_diff] at hpr
    have hcm := commonPairs_spec m c hWFm hNDm pr
      (List.mem_of_mem_filter hpr)
    rw [hEq, hc] at hcm
    cases hcm.2
  rw [applyDiffState, applyRelocatesState,
    modifyFold_lookup_of_no_key _ _ _ _ h hno]
  exact hbase

theorem applyDiffState_lookup_none (m c : TMap) (n : String)
    (hWFm : ∀ p ∈ m, p.2.hash = p.1) (hWFc : ∀ p ∈ c, p.2.hash = p.1)
    (hNDm : (m.map Prod.fst).Nodup) (h : String)
    (hm : lookupKey h m = none) :
    lookupKey h (applyDiffState (compute_diff m c n) c) = none := by
  have hbase := adds_stage_lookup_none m c n hWFm hWFc hNDm h hm
  have h3 : (lookupKey h (applyDiffState (compute_diff m c n) c)).isSome
      = false := by
    rw [applyDiffState, applyRelocatesState, modifyFold_isSome,
      applyRecategorizeState, modifyFold_isSome, hbase]
    rfl
  cases hfin : lookupKey h (applyDiffState (compute_diff m c n) c) with
  | none => rfl
  | some x => rw [hfin] at h3; cases h3

/-- C7: for every master map M and child map C (well-formed snapshot maps:
entry hash equals its key, keys unique as in a Python dict), applying the
diff computed from (M, C) to the child state and recomputing the diff from
M and the post-state yields a diff whose to_delete, to_add and to_relocate
lists are all empty. -/
theorem diff_apply_rediff_empty (m c : TMap) (n : String)
    (hWFm : ∀ p ∈ m, p.2.hash = p.1) (hWFc : ∀ p ∈ c, p.2.hash = p.1)
    (hNDm : (m.map Prod.fst).Nodup) :
    (compute_diff m (applyDiffState (compute_diff m c n) c) n).to_delete
       = [] ∧
    (compute_diff m (applyDiffState (compute_diff m c n) c) n).to_add
       = [] ∧
    (compute_diff m (applyDiffState (compute_diff m c n) c) n).to_relocate
       = [] := by
  have hkeys : (applyDiffState (compute_diff m c n) c).map Prod.fst
      = (applyAddsState (compute_diff m c n).to_add
          (applyDeletesState (compute_diff m c n).to_delete c)).map
            Prod.fst := by
    rw [applyDiffState, applyRelocatesState, modifyFold_keys,
      applyRecategorizeState, modifyFold_keys]
  refine ⟨?_, ?_, ?_⟩
  · show ((applyDiffState (compute_diff m c n) c).filter
        (fun p => (lookupKey p.1 m).isNone)).map Prod.snd = []
    apply List.map_eq_nil_iff.mpr
    apply List.filter_eq_nil_iff.mpr
    intro p hp
    have hpk : p.1 ∈ (applyAddsState (compute_diff m c n).to_add
        (applyDeletesState (compute_diff m c n).to_delete c)).map
          Prod.fst := by
      rw [← hkeys]
      exact List.mem_map_of_mem Prod.fst hp
    rw [List.mem_map] at hpk
    obtain ⟨q, hq, hq1⟩ := hpk
    have hsome : (lookupKey q.1 m).isSome = true := by
      rcases applyAddsState_mem _ _ q hq with ⟨e, he, rfl⟩ | hq'
      · have := (to_add_spec m c n hWFm hNDm e he).1
        rw [show ((e.hash, e) : String × TorrentEntry).1 = e.hash from rfl,
          this]
        rfl
      · obtain ⟨hqc, hnd⟩ := applyDeletesState_mem _ _ q hq'
        cases hqm : lookupKey q.1 m with
        | some x => rfl
        | none =>
          exfalso
          have hdel := to_delete_covers m c n q hqc hqm
          exact hnd q.2 hdel (hWFc q hqc)
    rw [hq1] at hsome
    intro hnone
    rw [Option.isNone_iff_eq_none] at hnone
    rw [hnone] at hsome
    cases hsome
  · show ((m.filter (fun p =>
        (lookupKey p.1 (applyDiffState (compute_diff m c n) c)).isNone)).map
          Prod.snd) = []
    apply List.map_eq_nil_iff.mpr
    apply List.filter_eq_nil_iff.mpr
    intro p hp hnone
    rw [Option.isNone_iff_eq_none] at hnone
    have hm : lookupKey p.1 m = some p.2 := lookupKey_of_nodup_mem m hNDm p hp
    cases hc : lookupKey p.1 c with
    | none =>
      have := reloc_stage_lookup_master_only m c n hWFm hWFc hNDm p.1 p.2
        hm hc
      rw [hnone] at this
      cases this
    | some ce =>
      obtain ⟨ce4, h4, -, -⟩ := reloc_stage_lookup m c n hWFm hWFc hNDm
        p.1 p.2 ce hm hc
      rw [hnone] at h4
      cases h4
  · show ((commonPairs m (applyDiffState (compute_diff m c n) c)).filter
        (fun pr => !(pr.1.save_path == pr.2.save_path)
          || !(pr.1.download_path == pr.2.download_path))) = []
    apply List.filter_eq_nil_iff.mpr
    intro pr hpr
    obtain ⟨hm4, hc4⟩ := commonPairs_spec m
      (applyDiffState (compute_diff m c n) c) hWFm hNDm pr hpr
    cases hc : lookupKey pr.1.hash c with
    | none =>
      have := reloc_stage_lookup_master_only m c n hWFm hWFc hNDm
        pr.1.hash pr.1 hm4 hc
      rw [this] at hc4
      injection hc4 with hc4
      rw [← hc4]
      simp
    | some ce =>
      obtain ⟨ce4, h4, hs, hd⟩ := reloc_stage_lookup m c n hWFm hWFc hNDm
        pr.1.hash pr.1 ce hm4 hc
      rw [h4] at hc4
      injection hc4 with hc4
      rw [← hc4, hs, hd]
      simp

/-- Concrete instance for diff_apply_rediff_empty on a pair of maps with a
delete, an add and a relocate-plus-recategorize all present. -/
theorem diff_apply_rediff_empty_witness :
    (compute_diff sampleMaster
      (applyDiffState (compute_diff sampleMaster sampleChild "kid")
        sampleChild) "kid").to_delete = [] ∧
    (compute_diff sampleMaster
      (applyDiffState (compute_diff sampleMaster sampleChild "kid")
        sampleChild) "kid").to_add = [] ∧
    (compute_diff sampleMaster
      (applyDiffState (compute_diff sampleMaster sampleChild "kid")
        sampleChild) "kid").to_relocate = [] :=
  diff_apply_rediff_empty sampleMaster sampleChild "kid"
    (by decide) (by decide) (by decide)

-- -------------------------------------------------------------------------
-- C8
-- -------------------------------------------------------------------------

theorem childDiverges_iff (ps cf : List Int) :
    childDiverges ps cf = true ↔
      ∃ i, i < ps.length ∧ ps.getD i 1 = 0 ∧ i < cf.length ∧
        cf.getD i 0 ≠ 0 := by
  unfold childDiverges
  rw [List.any_eq_true]
  constructor
  · rintro ⟨i, hi, hcond⟩
    rw [List.mem_range] at hi
    simp only [Bool.and_eq_true, beq_iff_eq, decide_eq_true_eq,
      Bool.not_eq_true', beq_eq_false_iff_ne, ne_eq] at hcond
    exact ⟨i, hi, hcond.1.1, hcond.1.2, hcond.2⟩
  · rintro ⟨i, hi, hz, hlen, hnz⟩
    refine ⟨i, List.mem_range.mpr hi, ?_⟩
    simp only [Bool.and_eq_true, beq_iff_eq, decide_eq_true_eq,
      Bool.not_eq_true', beq_eq_false_iff_ne, ne_eq]
    exact ⟨⟨hz, hlen⟩, hnz⟩

/-- C8: the file-sync refinement keeps exactly the candidates with a
tracked non-empty master priority list for which either the child file
fetch fails (conservative keep) or some master-deselected index, within
the child's file count, is not yet deselected on the child; everything
else is dropped. -/
theorem filter_needed_file_syncs_spec
    (files : String → Option (List Int)) (entries : List TorrentEntry)
    (e : TorrentEntry) :
    e ∈ filterNeededFileSyncs files entries ↔
      e ∈ entries ∧ ∃ ps, e.file_priorities = some ps ∧ ps ≠ [] ∧
        (files e.hash = none ∨ ∃ cf, files e.hash = some cf ∧
          ∃ i, i < ps.length ∧ ps.getD i 1 = 0 ∧ i < cf.length ∧
            cf.getD i 0 ≠ 0) := by
  induction entries with
  | nil => simp [filterNeededFileSyncs]
  | cons e0 rest ih =>
    cases hfp : e0.file_priorities with
    | none =>
      simp only [filterNeededFileSyncs, hfp]
      rw [ih, List.mem_cons]
      constructor
      · rintro ⟨hm, hP⟩
        exact ⟨Or.inr hm, hP⟩
      · rintro ⟨hm | hm, hP⟩
        · obtain ⟨ps, hps, -⟩ := hP
          rw [hm, hfp] at hps
          cases hps
        · exact ⟨hm, hP⟩
    | some ps =>
      cases hnil : ps.isEmpty with
      | true =>
        have hps0 : ps = [] := by
          cases ps
          · rfl
          · cases hnil
        simp only [filterNeededFileSyncs, hfp, hnil, if_true]
        rw [ih, List.mem_cons]
        constructor
        · rintro ⟨hm, hP⟩
          exact ⟨Or.inr hm, hP⟩
        · rintro ⟨hm | hm, hP⟩
          · obtain ⟨ps', hps', hne, -⟩ := hP
            rw [hm, hfp] at hps'
            injection hps' with hps'
            rw [← hps'] at hne
            exact absurd hps0 hne
          · exact ⟨hm, hP⟩
      | false =>
        have hpsne : ps ≠ [] := by
          cases ps
          · cases hnil
          · simp
        cases hf : files e0.hash with
        | none =>
          simp only [filterNeededFileSyncs, hfp, hnil, hf, Bool.false_eq_true,
            if_false]
          rw [List.mem_cons, List.mem_cons, ih]
          constructor
          · rintro (rfl | ⟨hm, hP⟩)
            · exact ⟨Or.inl rfl, ps, hfp, hpsne, Or.inl hf⟩
            · exact ⟨Or.inr hm, hP⟩
          · rintro ⟨rfl | hm, hP⟩
            · exact Or.inl rfl
            · exact Or.inr ⟨hm, hP⟩
        | some cf =>
          cases hdiv : childDiverges ps cf with
          | true =>
            simp only [filterNeededFileSyncs, hfp, hnil, hf, hdiv,
              Bool.false_eq_true, if_false, if_true]
            rw [List.mem_cons, List.mem_cons, ih]
            constructor
            · rintro (rfl | ⟨hm, hP⟩)
              · exact ⟨Or.inl rfl, ps, hfp, hpsne,
                  Or.inr ⟨cf, hf, (childDiverges_iff ps cf).mp hdiv⟩⟩
              · exact ⟨Or.inr hm, hP⟩
            · rintro ⟨rfl | hm, hP⟩
              · exact Or.inl rfl
              · exact Or.inr ⟨hm, hP⟩
          | false =>
            simp only [filterNeededFileSyncs, hfp, hnil, hf, hdiv,
              Bool.false_eq_true, if_false]
            rw [ih, List.mem_cons]
            constructor
            · rintro ⟨hm, hP⟩
              exact ⟨Or.inr hm, hP⟩
            · rintro ⟨hm | hm, hP⟩
              · obtain ⟨ps', hps', hne, hrest⟩ := hP
                rw [hm, hfp] at hps'
                injection hps' with hps'
                subst hps'
                rcases hrest with hn | ⟨cf', hcf', hex⟩
                · rw [hm, hf] at hn
                  cases hn
                · rw [hm, hf] at hcf'
                  injection hcf' with hcf'
                  subst hcf'
                  have := (childDiverges_iff ps cf).mpr hex
                  rw [this] at hdiv
                  cases hdiv
              · exact ⟨hm, hP⟩

-- -------------------------------------------------------------------------
-- C9
-- -------------------------------------------------------------------------

/-- C9: an add request that fails with a conflict response is treated as
success-no-op — nothing is counted as added, no exception surfaces, the
remaining adds in the batch proceed exactly as they would on their own
(the conflicting entry only contributes its export/backfill/add attempts
to the trace and its backfilled entry to the post-state). -/
theorem apply_adds_conflict_is_noop (mcb ccb : ClientBehavior)
    (e : TorrentEntry) (rest : List TorrentEntry) (skip : Bool)
    (hexp : mcb.export_ok e.hash = true)
    (hconf : ccb.add_result e.hash = AddOutcome.conflict) :
    (applyAdds mcb ccb (e :: rest) skip).added
        = (applyAdds mcb ccb rest skip).added ∧
    (applyAdds mcb ccb (e :: rest) skip).raised
        = (applyAdds mcb ccb rest skip).raised ∧
    (applyAdds mcb ccb (e :: rest) skip).trace
        = Event.exportTorrent e.hash :: (backfillTrace e
            ++ [Event.addTorrent e.hash]
            ++ (applyAdds mcb ccb rest skip).trace) ∧
    (applyAdds mcb ccb (e :: rest) skip).entries
        = backfillPriorities mcb e :: (applyAdds mcb ccb rest skip).entries
    := by
  simp [applyAdds, hexp, hconf]

/-- Concrete instance for apply_adds_conflict_is_noop: a conflicting first
add leaves count, abort flag and the processing of the second entry
untouched. -/
theorem apply_adds_conflict_is_noop_witness :
    ((applyAdds {}
        { add_result := fun h => if h == "h9" then AddOutcome.conflict
            else AddOutcome.ok }
        [{ hash := "h9", name := "N9", save_path := "/a", category := "",
           content_path := "", file_priorities := some [1, 1] },
         { hash := "h9b", name := "N9b", save_path := "/b", category := "",
           content_path := "", file_priorities := some [1] }] true).added
      = (applyAdds {}
          { add_result := fun h => if h == "h9" then AddOutcome.conflict
              else AddOutcome.ok }
          [{ hash := "h9b", name := "N9b", save_path := "/b", category := "",
             content_path := "", file_priorities := some [1] }] true).added)
    ∧ ((applyAdds {}
        { add_result := fun h => if h == "h9" then AddOutcome.conflict
            else AddOutcome.ok }
        [{ hash := "h9", name := "N9", save_path := "/a", category := "",
           content_path := "", file_priorities := some [1, 1] },
         { hash := "h9b", name := "N9b", save_path := "/b", category := "",
           content_path := "", file_priorities := some [1] }] true).raised
      = (applyAdds {}
          { add_result := fun h => if h == "h9" then AddOutcome.conflict
              else AddOutcome.ok }
          [{ hash := "h9b", name := "N9b", save_path := "/b", category := "",
             content_path := "", file_priorities := some [1] }] true).raised)
    := by
  have h := apply_adds_conflict_is_noop {}
    { add_result := fun h => if h == "h9" then AddOutcome.conflict
        else AddOutcome.ok }
    { hash := "h9", name := "N9", save_path := "/a", category := "",
      content_path := "", file_priorities := some [1, 1] }
    [{ hash := "h9b", name := "N9b", save_path := "/b", category := "",
       content_path := "", file_priorities := some [1] }] true
    (by decide) (by decide)
  exact ⟨h.1, h.2.1⟩

-- -------------------------------------------------------------------------
-- C3
-- -------------------------------------------------------------------------

theorem applyAdds_raised_false (mcb ccb : ClientBehavior)
    (adds : List TorrentEntry) (skip : Bool)
    (hres : ∀ h, ccb.resume_ok h = true) :
    (applyAdds mcb ccb adds skip).raised = false := by
  induction adds with
  | nil => rfl
  | cons e rest ih =>
    by_cases hexp : mcb.export_ok e.hash = false
    · simp [applyAdds, hexp, ih]
    · cases haddr : ccb.add_result e.hash with
      | ok =>
        by_cases hz :
            hasZeroPriority (backfillPriorities mcb e).file_priorities <;>
          simp [applyAdds, hexp, haddr, hres, hz, ih]
      | conflict => simp [applyAdds, hexp, haddr, ih]
      | err => simp [applyAdds, hexp, haddr, ih]

theorem applyAdds_export_attempted (mcb ccb : ClientBehavior)
    (adds : List TorrentEntry) (skip : Bool)
    (hres : ∀ h, ccb.resume_ok h = true) (e : TorrentEntry)
    (he : e ∈ adds) :
    Event.exportTorrent e.hash ∈ (applyAdds mcb ccb adds skip).trace := by
  induction adds with
  | nil => cases he
  | cons e0 rest ih =>
    rcases List.mem_cons.mp he with rfl | hm
    · by_cases hexp : mcb.export_ok e.hash = false
      · simp [applyAdds, hexp]
      · cases haddr : ccb.add_result e.hash with
        | ok =>
          by_cases hz :
              hasZeroPriority (backfillPriorities mcb e).file_priorities <;>
            simp [applyAdds, hexp, haddr, hres, hz]
        | conflict => simp [applyAdds, hexp, haddr]
        | err => simp [applyAdds, hexp, haddr]
    · have hr := ih hm
      by_cases hexp : mcb.export_ok e0.hash = false
      · simp [applyAdds, hexp, hr]
      · cases haddr : ccb.add_result e0.hash with
        | ok =>
          by_cases hz :
              hasZeroPriority (backfillPriorities mcb e0).file_priorities <;>
            simp [applyAdds, hexp, haddr, hres, hz, hr]
        | conflict => simp [applyAdds, hexp, haddr, hr]
        | err => simp [applyAdds, hexp, haddr, hr]

theorem applyRecategorize_isolated (ccb : ClientBehavior)
    (entries : List (TorrentEntry × TorrentEntry)) :
    (applyRecategorize ccb entries).raised = false ∧
    ∀ pr ∈ entries, Event.setCategory pr.1.hash
      ∈ (applyRecategorize ccb entries).trace := by
  induction entries with
  | nil => exact ⟨rfl, by simp⟩
  | cons pr rest ih =>
    refine ⟨rfl, ?_⟩
    intro pr' hpr'
    rcases List.mem_cons.mp hpr' with rfl | hm
    · simp [applyRecategorize]
    · simp [applyRecategorize, ih.2 pr' hm]

theorem applyRelocates_isolated (ccb : ClientBehavior)
    (entries : List (TorrentEntry × TorrentEntry)) :
    (applyRelocates ccb entries).raised = false ∧
    ∀ pr ∈ entries, Event.pause pr.1.hash
      ∈ (applyRelocates ccb entries).trace := by
  induction entries with
  | nil => exact ⟨rfl, by simp⟩
  | cons pr rest ih =>
    refine ⟨rfl, ?_⟩
    have hhead : Event.pause pr.1.hash ∈ (relocateItem ccb pr).1 := by
      unfold relocateItem
      by_cases h1 : ccb.pause_ok pr.1.hash = false
      · simp [h1]
      · by_cases h2 : pr.1.save_path ≠ pr.2.save_path ∧
            ccb.set_save_path_ok pr.1.hash = false
        · simp [h1, h2]
        · by_cases h3 : pr.1.download_path ≠ pr.2.download_path ∧
              ccb.set_download_path_ok pr.1.hash = false
          · simp [h1, h2, h3]
          · simp [h1, h2, h3]
    intro pr' hpr'
    rcases List.mem_cons.mp hpr' with rfl | hm
    · simp only [applyRelocates, List.mem_append]
      exact Or.inl hhead
    · simp only [applyRelocates, List.mem_append]
      exact Or.inr (ih.2 pr' hm)

theorem applyFilePrioritySync_isolated (ccb : ClientBehavior)
    (entries : List TorrentEntry) :
    (applyFilePrioritySync ccb entries).raised = false ∧
    ∀ e ∈ entries, (∃ ps, e.file_priorities = some ps ∧ ps ≠ []) →
      Event.fetchFiles false e.hash
        ∈ (applyFilePrioritySync ccb entries).trace := by
  induction entries with
  | nil => exact ⟨rfl, by simp⟩
  | cons e0 rest ih =>
    cases hfp : e0.file_priorities with
    | none =>
      refine ⟨by simp [applyFilePrioritySync, hfp, ih.1], ?_⟩
      intro e he hP
      rcases List.mem_cons.mp he with rfl | hm
      · obtain ⟨ps, hps, -⟩ := hP
        rw [hfp] at hps
        cases hps
      · simpa [applyFilePrioritySync, hfp] using ih.2 e hm hP
    | some ps =>
      cases hnil : ps.isEmpty with
      | true =>
        have hps0 : ps = [] := by
          cases ps
          · rfl
          · cases hnil
        refine ⟨by simp [applyFilePrioritySync, hfp, hnil, ih.1], ?_⟩
        intro e he hP
        rcases List.mem_cons.mp he with rfl | hm
        · obtain ⟨ps', hps', hne⟩ := hP
          rw [hfp] at hps'
          injection hps' with hps'
          rw [← hps'] at hne
          exact absurd hps0 hne
        · simpa [applyFilePrioritySync, hfp, hnil] using ih.2 e hm hP
      | false =>
        cases hf : ccb.files e0.hash with
        | none =>
          refine ⟨by simp [applyFilePrioritySync, hfp, hnil, hf, ih.1], ?_⟩
          intro e he hP
          rcases List.mem_cons.mp he with rfl | hm
          · simp [applyFilePrioritySync, hfp, hnil, hf]
          · simp only [applyFilePrioritySync, hfp, hnil, hf]
            simp only [Bool.false_eq_true, if_false, List.mem_cons]
            exact Or.inr (ih.2 e hm hP)
        | some cf =>
          cases hids : (fileSyncDeselectIds ps cf).isEmpty with
          | true =>
            refine ⟨by simp [applyFilePrioritySync, hfp, hnil, hf, hids,
              ih.1], ?_⟩
            intro e he hP
            rcases List.mem_cons.mp he with rfl | hm
            · simp [applyFilePrioritySync, hfp, hnil, hf, hids]
            · simp only [applyFilePrioritySync, hfp, hnil, hf, hids]
              simp only [Bool.false_eq_true, if_false, if_true,
                List.mem_cons]
              exact Or.inr (ih.2 e hm hP)
          | false =>
            refine ⟨by simp [applyFilePrioritySync, hfp, hnil, hf, hids],
              ?_⟩
            intro e he hP
            rcases List.mem_cons.mp he with rfl | hm
            · simp [applyFilePrioritySync, hfp, hnil, hf, hids]
            · simp only [applyFilePrioritySync, hfp, hnil, hf, hids]
              simp only [Bool.false_eq_true, if_false, List.mem_cons]
              exact Or.inr (Or.inr (ih.2 e hm hP))

theorem applyDeletes_raised_iff (ccb : ClientBehavior)
    (entries : List TorrentEntry) :
    (applyDeletes ccb entries).raised
      = (!entries.isEmpty && !ccb.delete_ok) := by
  by_cases hE : entries.isEmpty <;> by_cases hD : ccb.delete_ok <;>
    simp [applyDeletes, hE, hD]

/-- C3 counterexample: the claim — a client-call failure for one torrent
in any action category never prevents processing of the remaining
torrents in that category nor of the subsequent categories — is false on
the code: the post-add resume call of _apply_adds is outside the try
block, and its failure aborts the rest of the batch and all later
categories.  Exhibited on a diff with two adds (the first with a
deselected file and a failing resume) and one recategorization: the
second torrent's export and the recategorization call are never issued. -/
theorem apply_isolation_counterexample :
    ¬ (∀ (mcb ccb : ClientBehavior) (d : SyncDiff) (skip : Bool),
      (∀ e ∈ d.to_add, Event.exportTorrent e.hash
        ∈ (applyAllCategories mcb ccb d skip true).1) ∧
      (∀ pr ∈ d.to_recategorize, Event.setCategory pr.1.hash
        ∈ (applyAllCategories mcb ccb d skip true).1) ∧
      (∀ pr ∈ d.to_relocate, Event.pause pr.1.hash
        ∈ (applyAllCategories mcb ccb d skip true).1) ∧
      (∀ e ∈ d.to_sync_files, hasZeroPriority e.file_priorities = true →
        Event.fetchFiles false e.hash
          ∈ (applyAllCategories mcb ccb d skip true).1)) := by
  intro h
  have h1 := (h {} { resume_ok := fun _ => false }
    { child_name := "kid"
      to_add := [{ hash := "hA", name := "A", save_path := "/a",
                   category := "", content_path := "",
                   file_priorities := some [0] },
                 { hash := "hB", name := "B", save_path := "/b",
                   category := "", content_path := "",
                   file_priorities := some [1] }]
      to_recategorize := [({ hash := "hA", name := "A", save_path := "/a",
                             category := "x", content_path := "" },
                           { hash := "hA", name := "A", save_path := "/a",
                             category := "y", content_path := "" })] }
    false).1
    { hash := "hB", name := "B", save_path := "/b", category := "",
      content_path := "", file_priorities := some [1] } (by decide)
  exact absurd h1 (by decide)

/-- C3 amended: per-item failure isolation holds for the recategorize,
relocate and file-selection-sync categories unconditionally, and for the
add category for every guarded failure (export, master file fetch, add
call); the unguarded post-add resume call is the only way the add pass
can raise — when every resume succeeds the pass attempts every entry and
never raises — and the delete category is a single batched call that
raises exactly when it is non-empty and the delete call fails. -/
theorem apply_isolation_amended (mcb ccb : ClientBehavior)
    (adds syncs dels : List TorrentEntry)
    (recats relocs : List (TorrentEntry × TorrentEntry)) (skip : Bool)
    (hres : ∀ h, ccb.resume_ok h = true) :
    ((applyAdds mcb ccb adds skip).raised = false ∧
      ∀ e ∈ adds, Event.exportTorrent e.hash
        ∈ (applyAdds mcb ccb adds skip).trace) ∧
    ((applyRecategorize ccb recats).raised = false ∧
      ∀ pr ∈ recats, Event.setCategory pr.1.hash
        ∈ (applyRecategorize ccb recats).trace) ∧
    ((applyRelocates ccb relocs).raised = false ∧
      ∀ pr ∈ relocs, Event.pause pr.1.hash
        ∈ (applyRelocates ccb relocs).trace) ∧
    ((applyFilePrioritySync ccb syncs).raised = false ∧
      ∀ e ∈ syncs, (∃ ps, e.file_priorities = some ps ∧ ps ≠ []) →
        Event.fetchFiles false e.hash
          ∈ (applyFilePrioritySync ccb syncs).trace) ∧
    ((applyDeletes ccb dels).raised
      = (!dels.isEmpty && !ccb.delete_ok)) :=
  ⟨⟨applyAdds_raised_false mcb ccb adds skip hres,
    fun e he => applyAdds_export_attempted mcb ccb adds skip hres e he⟩,
   applyRecategorize_isolated ccb recats,
   applyRelocates_isolated ccb relocs,
   applyFilePrioritySync_isolated ccb syncs,
   applyDeletes_raised_iff ccb dels⟩

/-- Concrete instance for apply_isolation_amended: with succeeding resumes
an add pass with one deselected-file entry does not raise and attempts its
export, and a recategorization pair is attempted even though its
set-category call fails. -/
theorem apply_isolation_amended_witness :
    ((applyAdds {} {}
      [{ hash := "hW", name := "W", save_path := "/w", category := "",
         content_path := "", file_priorities := some [0] }] true).raised
        = false) ∧
    Event.exportTorrent "hW" ∈ (applyAdds {} {}
      [{ hash := "hW", name := "W", save_path := "/w", category := "",
         content_path := "", file_priorities := some [0] }] true).trace := by
  have h := apply_isolation_amended {} {}
    [{ hash := "hW", name := "W", save_path := "/w", category := "",
       content_path := "", file_priorities := some [0] }] [] [] [] [] true
    (fun _ => rfl)
  exact ⟨h.1.1, h.1.2
    { hash := "hW", name := "W", save_path := "/w", category := "",
      content_path := "", file_priorities := some [0] } (by decide)⟩

-- -------------------------------------------------------------------------
-- C2
-- -------------------------------------------------------------------------

theorem cleanupStale_dry (cb : ClientBehavior) (child : String) :
    (cleanupStale cb child true).2 = false ∧
    ∀ ev ∈ (cleanupStale cb child true).1, ev.isMutating = false := by
  cases hE : (staleHashes cb.torrents).isEmpty with
  | true =>
    refine ⟨by simp [cleanupStale, hE], ?_⟩
    intro ev hev
    simp [cleanupStale, hE] at hev
    subst hev
    rfl
  | false =>
    refine ⟨by simp [cleanupStale, hE], ?_⟩
    intro ev hev
    simp [cleanupStale, hE] at hev
    rcases hev with rfl | rfl <;> rfl

theorem cleanupPhase_dry (cbOf : String → ClientBehavior)
    (cs : List String) :
    (cleanupPhase cbOf true cs).2 = false ∧
    ∀ ev ∈ (cleanupPhase cbOf true cs).1, ev.isMutating = false := by
  induction cs with
  | nil => exact ⟨rfl, by simp [cleanupPhase]⟩
  | cons child rest ih =>
    cases hc : (cbOf child).connect_ok with
    | false =>
      refine ⟨by simp [cleanupPhase, hc, ih.1], ?_⟩
      intro ev hev
      simp only [cleanupPhase, hc] at hev
      simp at hev
      rcases hev with rfl | hm
      · rfl
      · exact ih.2 ev hm
    | true =>
      have hcs := cleanupStale_dry (cbOf child) child
      refine ⟨by simp [cleanupPhase, hc, hcs.1, ih.1], ?_⟩
      intro ev hev
      simp only [cleanupPhase, hc] at hev
      simp [hcs.1] at hev
      rcases hev with rfl | hm | hm
      · rfl
      · exact hcs.2 ev hm
      · exact ih.2 ev hm

theorem filterNeededTrace_not_mutating (es : List TorrentEntry) :
    ∀ ev ∈ filterNeededTrace es, ev.isMutating = false := by
  intro ev hev
  unfold filterNeededTrace at hev
  rw [List.mem_filterMap] at hev
  obtain ⟨e, he, hmap⟩ := hev
  cases hfp : e.file_priorities with
  | none => simp [hfp] at hmap
  | some ps =>
    by_cases hnil : ps.isEmpty = true
    · simp [hfp, hnil] at hmap
    · simp [hfp, hnil] at hmap
      rw [← hmap]
      rfl

theorem childPhase_dry (mcb : ClientBehavior) (cbOf : String → ClientBehavior)
    (cfg : RunConfig) (master : TMap) (cs : List String) :
    (childPhase mcb cbOf cfg true master cs).2 = false ∧
    ∀ ev ∈ (childPhase mcb cbOf cfg true master cs).1,
      ev.isMutating = false := by
  induction cs with
  | nil => exact ⟨rfl, by simp [childPhase]⟩
  | cons child rest ih =>
    cases hc : (cbOf child).connect_ok with
    | false =>
      refine ⟨by simp [childPhase, hc, ih.1], ?_⟩
      intro ev hev
      simp only [childPhase, hc] at hev
      simp at hev
      rcases hev with rfl | hm
      · rfl
      · exact ih.2 ev hm
    | true =>
      refine ⟨by simp [childPhase, hc, ih.1], ?_⟩
      intro ev hev
      simp only [childPhase, hc] at hev
      simp at hev
      rcases hev with rfl | rfl | ⟨-, hmf⟩ | rfl | hm
      · rfl
      · rfl
      · exact filterNeededTrace_not_mutating _ ev hmf
      · rfl
      · exact ih.2 ev hm

theorem childPhase_dry_reports (mcb : ClientBehavior)
    (cbOf : String → ClientBehavior) (cfg : RunConfig) (master : TMap)
    (cs : List String) (child : String) (hc : child ∈ cs)
    (hok : (cbOf child).connect_ok = true) :
    Event.fetchTorrentsChild child
      ∈ (childPhase mcb cbOf cfg true master cs).1 ∧
    ∃ d, Event.reportDiff d ∈ (childPhase mcb cbOf cfg true master cs).1 ∧
      d.child_name = child := by
  induction cs with
  | nil => cases hc
  | cons c0 rest ih =>
    rcases List.mem_cons.mp hc with rfl | hm
    · refine ⟨by simp [childPhase, hok], ?_⟩
      refine ⟨(if cfg.sync_file_selections then
          { compute_diff master (fetchChildTorrents (cbOf child).torrents)
              child with
            to_sync_files := filterNeededFileSyncs (cbOf child).files
              (compute_diff master
                (fetchChildTorrents (cbOf child).torrents)
                child).to_sync_files }
        else compute_diff master
          (fetchChildTorrents (cbOf child).torrents) child), ?_, ?_⟩
      · simp [childPhase, hok]
      · cases cfg.sync_file_selections <;> rfl
    · cases hc0 : (cbOf c0).connect_ok with
      | false =>
        obtain ⟨h1, d, h2, h3⟩ := ih hm
        exact ⟨by simp [childPhase, hc0, h1], d,
          by simp [childPhase, hc0, h2], h3⟩
      | true =>
        obtain ⟨h1, d, h2, h3⟩ := ih hm
        exact ⟨by simp [childPhase, hc0, h1], d,
          by simp [childPhase, hc0, h2], h3⟩

/-- C2: with dry_run set, run_sync issues no mutating client call in any
step (including the stale-cleanup pass), and it still performs the
per-child fetch and reports each connected child's diff. -/
theorem run_sync_dry_run_no_mutations (mcb : ClientBehavior)
    (cbOf : String → ClientBehavior) (cfg : RunConfig) :
    (∀ ev ∈ (runSync mcb cbOf cfg true).1, ev.isMutating = false) ∧
    (mcb.connect_ok = true → ∀ child ∈ cfg.children,
      (cbOf child).connect_ok = true →
        Event.fetchTorrentsChild child ∈ (runSync mcb cbOf cfg true).1 ∧
        ∃ d, Event.reportDiff d ∈ (runSync mcb cbOf cfg true).1 ∧
          d.child_name = child) := by
  have hcl := cleanupPhase_dry cbOf cfg.children
  constructor
  · intro ev hev
    cases hmc : mcb.connect_ok with
    | false =>
      have heq : (runSync mcb cbOf cfg true).1
          = (cleanupPhase cbOf true cfg.children).1
            ++ [Event.connectMaster] := by
        simp [runSync, hcl.1, hmc]
      rw [heq] at hev
      rcases List.mem_append.mp hev with hm | hm
      · exact hcl.2 ev hm
      · rcases List.mem_singleton.mp hm with rfl
        rfl
    | true =>
      have heq : (runSync mcb cbOf cfg true).1
          = (cleanupPhase cbOf true cfg.children).1
            ++ [Event.connectMaster, Event.fetchTorrentsMaster]
            ++ (if cfg.sync_file_selections = true then
                (fetchMasterTorrents mcb.files mcb.torrents
                  (cfg.min_seeding_time_minutes * 60)
                  cfg.sync_file_selections
                  cfg.treat_stopped_as_removed).map
                    (fun p => Event.fetchFiles true p.1)
              else [])
            ++ (childPhase mcb cbOf cfg true
                (fetchMasterTorrents mcb.files mcb.torrents
                  (cfg.min_seeding_time_minutes * 60)
                  cfg.sync_file_selections
                  cfg.treat_stopped_as_removed) cfg.children).1 := by
        simp [runSync, hcl.1, hmc]
      rw [heq] at hev
      rcases List.mem_append.mp hev with hm | hm
      rotate_left
      · exact (childPhase_dry mcb cbOf cfg _ cfg.children).2 ev hm
      rcases List.mem_append.mp hm with hm | hm
      rotate_left
      · rcases hsf : cfg.sync_file_selections with _ | _
        · rw [hsf] at hm
          simp at hm
        · rw [hsf] at hm
          simp only [if_pos rfl] at hm
          obtain ⟨p, -, rfl⟩ := List.mem_map.mp hm
          rfl
      rcases List.mem_append.mp hm with hm | hm
      · exact hcl.2 ev hm
      · rcases List.mem_cons.mp hm with rfl | hm
        · rfl
        · rcases List.mem_singleton.mp hm with rfl
          rfl
  · intro hmc child hchild hok
    obtain ⟨h1, d, h2, h3⟩ := childPhase_dry_reports mcb cbOf cfg
      (fetchMasterTorrents mcb.files mcb.torrents
        (cfg.min_seeding_time_minutes * 60) cfg.sync_file_selections
        cfg.treat_stopped_as_removed) cfg.children child hchild hok
    exact ⟨by simp [runSync, hcl.1, hmc, h1], d,
      by simp [runSync, hcl.1, hmc, h2], h3⟩

/-- Concrete instance for run_sync_dry_run_no_mutations: one child with
one eligible master torrent; in dry-run mode the connect event is
non-mutating and the child fetch and diff report still appear in the
trace. -/
theorem run_sync_dry_run_no_mutations_witness :
    (Event.connectChild "c1").isMutating = false ∧
    Event.fetchTorrentsChild "c1"
      ∈ (runSync sampleMasterBehavior (fun _ => {})
          sampleRunConfig true).1 := by
  have h := run_sync_dry_run_no_mutations sampleMasterBehavior
    (fun _ => {}) sampleRunConfig
  refine ⟨?_, (h.2 rfl "c1" (by decide) rfl).1⟩
  have hconn : Event.connectChild "c1"
      ∈ (runSync sampleMasterBehavior (fun _ => {})
          sampleRunConfig true).1 := by decide
  exact h.1 (Event.connectChild "c1") hconn

-- -------------------------------------------------------------------------
-- C10
-- -------------------------------------------------------------------------

theorem backfillRel_refl (e : TorrentEntry) : backfillRel e e :=
  ⟨rfl, fun _ h => h⟩

theorem backfillRel_backfill (mcb : ClientBehavior) (e : TorrentEntry) :
    backfillRel e (backfillPriorities mcb e) := by
  unfold backfillPriorities
  cases hfp : e.file_priorities with
  | some ps => exact backfillRel_refl e
  | none =>
    cases hf : mcb.files e.hash with
    | none => exact backfillRel_refl e
    | some ps =>
      refine ⟨rfl, ?_⟩
      intro l hl
      rw [hfp] at hl
      cases hl

theorem forall₂_backfillRel_refl (es : List TorrentEntry) :
    List.Forall₂ backfillRel es es :=
  List.forall₂_same.mpr (fun e _ => backfillRel_refl e)

theorem forall₂_mem_right {α β : Type} {r : α → β → Prop} {l1 : List α}
    {l2 : List β} (hf : List.Forall₂ r l1 l2) (b : β) (hb : b ∈ l2) :
    ∃ a ∈ l1, r a b := by
  induction hf with
  | nil => cases hb
  | cons hr hrest ih =>
    rcases List.mem_cons.mp hb with rfl | hb'
    · exact ⟨_, List.mem_cons_self _ _, hr⟩
    · obtain ⟨a, ha, har⟩ := ih hb'
      exact ⟨a, List.mem_cons_of_mem _ ha, har⟩

theorem applyAdds_entries_rel (mcb ccb : ClientBehavior)
    (es : List TorrentEntry) (skip : Bool) :
    List.Forall₂ backfillRel es (applyAdds mcb ccb es skip).entries := by
  induction es with
  | nil => exact List.Forall₂.nil
  | cons e rest ih =>
    by_cases hexp : mcb.export_ok e.hash = false
    · simp [applyAdds, hexp]
      exact ⟨backfillRel_refl e, ih⟩
    · cases haddr : ccb.add_result e.hash with
      | ok =>
        by_cases hz :
            hasZeroPriority (backfillPriorities mcb e).file_priorities
        · cases hrs : ccb.resume_ok e.hash with
          | true =>
            simp [applyAdds, hexp, haddr, hz, hrs]
            exact ⟨backfillRel_backfill mcb e, ih⟩
          | false =>
            simp [applyAdds, hexp, haddr, hz, hrs]
            exact ⟨backfillRel_backfill mcb e,
              fun x _ => backfillRel_refl x⟩
        · simp [applyAdds, hexp, haddr, hz]
          exact ⟨backfillRel_backfill mcb e, ih⟩
      | conflict =>
        simp [applyAdds, hexp, haddr]
        exact ⟨backfillRel_backfill mcb e, ih⟩
      | err =>
        simp [applyAdds, hexp, haddr]
        exact ⟨backfillRel_backfill mcb e, ih⟩

theorem updateMasterEntries_WF (master : TMap) (es : List TorrentEntry)
    (hWF : ∀ p ∈ master, p.2.hash = p.1) :
    ∀ p ∈ updateMasterEntries master es, p.2.hash = p.1 := by
  unfold updateMasterEntries
  induction es generalizing master with
  | nil => exact hWF
  | cons e rest ih =>
    rw [modifyFold, List.foldl_cons, ← modifyFold]
    refine ih _ ?_
    intro p hp
    obtain ⟨q, hq, hpq⟩ := List.mem_map.mp hp
    by_cases hqk : q.1 = e.hash
    · rw [← hpq, if_pos hqk]
      exact hqk.symm
    · rw [← hpq, if_neg hqk]
      exact hWF q hq

theorem updateMasterEntries_keys (master : TMap) (es : List TorrentEntry) :
    (updateMasterEntries master es).map Prod.fst = master.map Prod.fst := by
  unfold updateMasterEntries
  exact modifyFold_keys _ _ es master

theorem updateMasterEntries_lookup_prio (h : String) (l : List Int)
    (es : List TorrentEntry)
    (hes : ∀ e ∈ es, e.hash = h → e.file_priorities = some l)
    (master : TMap)
    (hv : ∃ v, lookupKey h master = some v ∧ v.file_priorities = some l) :
    ∃ v, lookupKey h (updateMasterEntries master es) = some v ∧
      v.file_priorities = some l := by
  unfold updateMasterEntries
  induction es generalizing master with
  | nil => exact hv
  | cons e rest ih =>
    rw [modifyFold, List.foldl_cons, ← modifyFold]
    obtain ⟨v, hlv, hpv⟩ := hv
    refine ih (fun e' he' hh => hes e' (List.mem_cons_of_mem _ he') hh) _ ?_
    by_cases hk : e.hash = h
    · refine ⟨e, ?_, hes e (List.mem_cons_self _ _) hk⟩
      rw [lookupKey_modifyKey, if_pos hk, hlv]
      rfl
    · refine ⟨v, ?_, hpv⟩
      rw [lookupKey_modifyKey, if_neg hk]
      exact hlv

theorem liveChildMasterStep_inv (mcb cb : ClientBehavior) (skip : Bool)
    (master : TMap) (ts : List RawTorrent) (name : String)
    (hWF : ∀ p ∈ master, p.2.hash = p.1)
    (hND : (master.map Prod.fst).Nodup) :
    (∀ p ∈ liveChildMasterStep mcb cb skip master ts name,
      p.2.hash = p.1) ∧
    ((liveChildMasterStep mcb cb skip master ts name).map Prod.fst).Nodup ∧
    ∀ h l,
      (∃ v, lookupKey h master = some v ∧ v.file_priorities = some l) →
      ∃ v, lookupKey h (liveChildMasterStep mcb cb skip master ts name)
        = some v ∧ v.file_priorities = some l := by
  unfold liveChildMasterStep
  refine ⟨updateMasterEntries_WF _ _ hWF, ?_, ?_⟩
  · rw [updateMasterEntries_keys]
    exact hND
  · intro h l hv
    refine updateMasterEntries_lookup_prio h l _ ?_ master hv
    intro e' he' hh
    obtain ⟨a, ha, hrel⟩ := forall₂_mem_right
      (applyAdds_entries_rel mcb cb
        (compute_diff master (fetchChildTorrents ts) name).to_add skip)
      e' he'
    have hahash : e'.hash = a.hash := by rw [hrel.1]
    have hlook := (to_add_spec master (fetchChildTorrents ts) name hWF hND
      a ha).1
    rw [← hahash, hh] at hlook
    obtain ⟨v, hlv, hpv⟩ := hv
    rw [hlv] at hlook
    injection hlook with hlook
    exact hrel.2 l (by rw [hlook] at hpv; exact hpv)

theorem liveCycleMaster_inv (mcb : ClientBehavior)
    (cbOf : String → ClientBehavior) (skip : Bool) (cs : List String) :
    ∀ master : TMap, (∀ p ∈ master, p.2.hash = p.1) →
      (master.map Prod.fst).Nodup →
      ∀ h l,
        (∃ v, lookupKey h master = some v ∧ v.file_priorities = some l) →
        ∃ v, lookupKey h (liveCycleMaster mcb cbOf skip master cs) = some v
          ∧ v.file_priorities = some l := by
  induction cs with
  | nil =>
    intro master _ _ h l hv
    exact hv
  | cons c rest ih =>
    intro master hWF hND h l hv
    have hstep := liveChildMasterStep_inv mcb (cbOf c) skip master
      (cbOf c).torrents c hWF hND
    exact ih _ hstep.1 hstep.2.1 h l (hstep.2.2 h l hv)

/-- C10: (1) the add pass changes no field of a master entry other than
file_priorities and never overwrites a present priority list (backfill
only when absent); (2) to_add holds the master map's own entries; hence
(3) a priority list present in the shared master snapshot persists
unchanged across the children of a live cycle, so a backfill made while
processing one child is visible to every subsequent child. -/
theorem master_entries_shared_backfill :
    (∀ (mcb ccb : ClientBehavior) (es : List TorrentEntry) (skip : Bool),
      List.Forall₂ backfillRel es (applyAdds mcb ccb es skip).entries) ∧
    (∀ (m c : TMap) (n : String),
      (∀ p ∈ m, p.2.hash = p.1) → (m.map Prod.fst).Nodup →
      ∀ e ∈ (compute_diff m c n).to_add, lookupKey e.hash m = some e) ∧
    (∀ (mcb : ClientBehavior) (cbOf : String → ClientBehavior)
      (skip : Bool) (master : TMap) (cs : List String) (h : String)
      (l : List Int),
      (∀ p ∈ master, p.2.hash = p.1) → (master.map Prod.fst).Nodup →
      (∃ v, lookupKey h master = some v ∧ v.file_priorities = some l) →
      ∃ v, lookupKey h (liveCycleMaster mcb cbOf skip master cs) = some v ∧
        v.file_priorities = some l) :=
  ⟨applyAdds_entries_rel,
   fun m c n hWF hND e he => (to_add_spec m c n hWF hND e he).1,
   fun mcb cbOf skip master cs h l hWF hND hv =>
     liveCycleMaster_inv mcb cbOf skip cs master hWF hND h l hv⟩

/-- Concrete instance for master_entries_shared_backfill: a loaded
priority list on the shared master entry survives a two-child live
cycle. -/
theorem master_entries_shared_backfill_witness :
    ∃ v, lookupKey "p"
        (liveCycleMaster {} (fun _ => {}) true prioMaster ["c1", "c2"])
      = some v ∧ v.file_priorities = some [1, 0] :=
  master_entries_shared_backfill.2.2 {} (fun _ => {}) true prioMaster
    ["c1", "c2"] "p" [1, 0] (by decide) (by decide)
    ⟨{ hash := "p", name := "P", save_path := "/p", category := "",
       content_path := "", file_priorities := some [1, 0] },
     by decide, by decide⟩

end QbtSync
